import Mathlib

/-!
# Navigation getters of the multi-branch tree (utils/mbtree/tree_getters_node.go)

A shallow embedding of the getters of `SafeMultiBranchTree` and the properties that the
specification states about them.

Modelling conventions
* `int64` ids and the `int` level are `Int`; the getters only compare them.
* A `*Node` result is `Option Node`: `none` is the nil pointer.
* A `[]*Node` result is `Option (List Node)`: `none` is the nil slice, `some []` is the
  empty slice made by `make([]*Node, 0)`.
* The node store (a concurrent map holding dynamically typed values) is an association
  list; `Load` returns the value of the first entry with the given key.
* The `for` loop of `GetAncestorNode` has no static bound, so it is run with a fuel
  counter (one unit for each iteration); `none` as outer result says the fuel ran out.
* The getters that enumerate the store (`GetAllNodes`, `GetLeafNodes`, `GetDescendantNodes`)
  can put a nil pointer in their result, so their slices are `List (Option Node)`; `Range`
  enumerates one entry for each key, in the order of the list.
* The methods `Level`, `DepthFirstTraversal`, `SubTree` and `IsLeaf` and the helpers
  `getIdFromArgs` and `getFilterFromArgs` are not part of the visible source. The getters take
  `Level`, `DepthFirstTraversal` and `SubTree` as parameters; the definitions of the same
  names are models written from the spec.
-/

namespace mbtree

/-! ## Data model -/

/-- Modelled from the spec: the declaration of the `Node` struct is not part of the visible
source; the getters read the fields `Id`, `Pid` and `ChildIds` (spec: `id`, `parentId`,
`childIds`). -/
structure Node where
  Id : Int
  Pid : Int
  ChildIds : List Int
deriving DecidableEq, Repr

/-- A value held by the node store. The store holds dynamically typed values, so an entry can be
a non-nil `*Node`, a nil `*Node`, or a value of another dynamic type. -/
inductive StoreValue where
  | node (n : Node)
  | nilNode
  | other
deriving DecidableEq, Repr

/-- Modelled from the spec: the declaration of `SafeMultiBranchTree` is not part of the visible
source; the getters read the fields `RootId` and `Nodes` (spec: `rootId`, `nodes`). -/
structure SafeMultiBranchTree where
  RootId : Int
  Nodes : List (Int × StoreValue)
deriving DecidableEq, Repr

/-- The call `t.Nodes.Load(id)`: `none` is `exist == false`. -/
def Load : List (Int × StoreValue) → Int → Option StoreValue
  | [], _ => none
  | (k, v) :: rest, id => if k = id then some v else Load rest id

/-- The method `Node.IsLeaf`. Modelled from the spec: true iff `childIds` is empty. -/
def Node.IsLeaf (n : Node) : Bool := n.ChildIds.isEmpty

/-! ## Getters -/

/-- The method `GetNode` (lines 3-14). -/
def GetNode (t : SafeMultiBranchTree) (id : Int) : Option Node :=
  match Load t.Nodes id with
  | none => none
  | some v =>
    match v with
    | StoreValue.node n => some n
    | StoreValue.nilNode => none
    | StoreValue.other => none

/-- The method `GetParentNode` (lines 16-23). -/
def GetParentNode (t : SafeMultiBranchTree) (id : Int) : Option Node :=
  match GetNode t id with
  | none => none
  | some node => GetNode t node.Pid

/-- The method `GetRootNode` (lines 25-28). -/
def GetRootNode (t : SafeMultiBranchTree) : Option Node :=
  GetNode t t.RootId

/-- One iteration of the loop of `GetChildNodes` (lines 160-164): append the child when its id
resolves. -/
def appendResolved (t : SafeMultiBranchTree) (childNodes : List Node) (childId : Int) :
    List Node :=
  match GetNode t childId with
  | some childNode => childNodes ++ [childNode]
  | none => childNodes

/-- The method `GetChildNodes` (lines 151-166). -/
def GetChildNodes (t : SafeMultiBranchTree) (id : Int) : Option (List Node) :=
  match GetNode t id with
  | none => none
  | some node => some (node.ChildIds.foldl (appendResolved t) [])

/-- One iteration of the loop of `GetSiblingNodes` (lines 127-135): ids equal to `id` are
passed over, the others are appended when they resolve. -/
def appendSibling (t : SafeMultiBranchTree) (id : Int) (siblingNodes : List Node)
    (childId : Int) : List Node :=
  if childId ≠ id then
    match GetNode t childId with
    | some childNode => siblingNodes ++ [childNode]
    | none => siblingNodes
  else siblingNodes

/-- The method `GetSiblingNodes` (lines 112-137). -/
def GetSiblingNodes (t : SafeMultiBranchTree) (id : Int) : Option (List Node) :=
  if id = t.RootId then none
  else
    match GetParentNode t id with
    | none => none
    | some parentNode => some (parentNode.ChildIds.foldl (appendSibling t id) [])

/-- The labelled loop of `GetAncestorNode` (lines 92-108). `lvl` stands for the method
`t.Level`; each iteration uses one unit of fuel and `none` says that the fuel ran out before the
loop returned. -/
def ancestorLoop (lvl : Int → Int) (t : SafeMultiBranchTree) (level : Int) :
    Nat → Node → Int → Option (Option Node)
  | 0, _, _ => none
  | fuel + 1, ascendant, ascendantLevel =>
    if ascendantLevel = level then some (some ascendant)
    else if ascendantLevel = 0 then some none
    else
      match GetNode t ascendant.Pid with
      | none => some none
      | some next => ancestorLoop lvl t level fuel next (lvl next.Id)

/-- The method `GetAncestorNode` (lines 55-110). The method `t.Level` that it calls is not part
of the visible source and is passed as `lvl`; `fuel` bounds the iterations of the loop. The
result `some r` is the returned pointer `r`, `none` says that the loop did not return within
`fuel` iterations. -/
def GetAncestorNode (lvl : Int → Int) (fuel : Nat) (t : SafeMultiBranchTree) (id level : Int) :
    Option (Option Node) :=
  if id = t.RootId then some none
  else
    match GetNode t id with
    | none => some none
    | some node =>
      match GetNode t node.Pid with
      | none => some none
      | some ascendant =>
        if level = 0 then some (some ascendant)
        else if level ≥ lvl id then some none
        else ancestorLoop lvl t level fuel ascendant (lvl ascendant.Id)

/-! ## Level -/

/-- Modelled from the spec: the method `Level` is not part of the visible source. The spec
computes the depth of `id` by walking parent links from `id` to the root and counting the steps
(root = 0), and treats an id that does not resolve as an error. `levelWalk t fuel id` visits at
most `fuel` nodes; `none` says that the walk met an id that does not resolve or did not reach
the root within `fuel` nodes. -/
def levelWalk (t : SafeMultiBranchTree) : Nat → Int → Option Nat
  | 0, _ => none
  | fuel + 1, id =>
    match GetNode t id with
    | none => none
    | some node =>
      if id = t.RootId then some 0
      else (levelWalk t fuel node.Pid).map (fun k => k + 1)

/-- Modelled from the spec: `HasLevel t id k` says that `k` is the number of parent links from
`id` to the root: the walk from `id` reaches the root after `k` links, visiting `k + 1` nodes. -/
def HasLevel (t : SafeMultiBranchTree) (id : Int) (k : Nat) : Prop :=
  levelWalk t (k + 1) id = some k

instance (t : SafeMultiBranchTree) (id : Int) (k : Nat) : Decidable (HasLevel t id k) := by
  unfold HasLevel; infer_instance

/-- Modelled from the spec: the method `Level` is not part of the visible source. It returns the
number of parent links from `id` to the root. A walk over distinct stored nodes visits at most
as many nodes as the store has entries, so that many units of fuel are enough. The spec leaves
the result open when the walk fails; this model returns the sentinel `-1` that the spec
suggests. -/
def Level (t : SafeMultiBranchTree) (id : Int) : Int :=
  match levelWalk t t.Nodes.length id with
  | some k => (k : Int)
  | none => -1

/-- Modelled from the spec: `IsLevelFn lvl t` says that `lvl` is an implementation of the method
`Level` on `t`: it returns the number of parent links to the root wherever that number
exists. Nothing is asked where the walk fails, which the spec leaves open. -/
def IsLevelFn (lvl : Int → Int) (t : SafeMultiBranchTree) : Prop :=
  ∀ id k, HasLevel t id k → lvl id = (k : Int)

/-! ## The tree of the scenarios of the spec: 1 -> {2, 3}, 2 -> {4} -/

/-- Node 1, the root; its parent id 0 is not a key of the store. -/
def node1 : Node := { Id := 1, Pid := 0, ChildIds := [2, 3] }

/-- Node 2, child of node 1. -/
def node2 : Node := { Id := 2, Pid := 1, ChildIds := [4] }

/-- Node 3, child of node 1. -/
def node3 : Node := { Id := 3, Pid := 1, ChildIds := [] }

/-- Node 4, child of node 2. -/
def node4 : Node := { Id := 4, Pid := 2, ChildIds := [] }

/-- The tree with root 1, children 2 and 3 of 1, and child 4 of 2. -/
def specTree : SafeMultiBranchTree :=
  { RootId := 1
    Nodes := [(1, StoreValue.node node1), (2, StoreValue.node node2),
              (3, StoreValue.node node3), (4, StoreValue.node node4)] }

/-! ## Predicates of the data model -/

/-- The node `n` is stored in the tree: looking up its id gives `n` back. -/
def StoredNode (t : SafeMultiBranchTree) (n : Node) : Prop :=
  GetNode t n.Id = some n

instance (t : SafeMultiBranchTree) (n : Node) : Decidable (StoredNode t n) := by
  unfold StoredNode; infer_instance

/-- The tree is populated: its root resolves. -/
def Populated (t : SafeMultiBranchTree) : Prop :=
  ∃ r, GetNode t t.RootId = some r

/-- The invariant of the data model: the parent id of every stored node other than the root
references a stored node, and the child list of that node contains the id of the node. -/
def DataModelInvariant (t : SafeMultiBranchTree) : Prop :=
  ∀ n, StoredNode t n → n.Id ≠ t.RootId →
    ∃ p, StoredNode t p ∧ p.Id = n.Pid ∧ n.Id ∈ p.ChildIds

/-- The root of the tree 1 -> {2, 3}, 2 -> {4} when the sentinel for "no parent" is the id of
the root itself. -/
def selfRoot : Node := { Id := 1, Pid := 1, ChildIds := [2, 3] }

/-- The tree 1 -> {2, 3}, 2 -> {4} whose root carries its own id as parent id. -/
def selfRootTree : SafeMultiBranchTree :=
  { RootId := 1
    Nodes := [(1, StoreValue.node selfRoot), (2, StoreValue.node node2),
              (3, StoreValue.node node3), (4, StoreValue.node node4)] }

/-- The keys of the store are the ids of the nodes: the node that an id resolves to carries that
id. -/
def KeysAreIds (t : SafeMultiBranchTree) : Prop :=
  ∀ id n, GetNode t id = some n → n.Id = id

/-- The parent chain of every stored node other than the root reaches the root. -/
def ChainsReachRoot (t : SafeMultiBranchTree) : Prop :=
  ∀ id n, GetNode t id = some n → id ≠ t.RootId → ∃ k, HasLevel t id k

/-- A well-formed tree: the keys of the store are the ids of the nodes and the parent chain of
every node other than the root reaches the root. -/
structure WellFormed (t : SafeMultiBranchTree) : Prop where
  keys : KeysAreIds t
  chains : ChainsReachRoot t

/-- The parent chain of `id`: `nthAncestor t j id` is the node reached from `id` by following
`j` parent links; the chain ends at the root. -/
def nthAncestor (t : SafeMultiBranchTree) : Nat → Int → Option Node
  | 0, id => GetNode t id
  | j + 1, id =>
    if id = t.RootId then none
    else
      match GetNode t id with
      | none => none
      | some n => nthAncestor t j n.Pid

/-- Node 1 of the chain, the root. -/
def chain1 : Node := { Id := 1, Pid := 0, ChildIds := [2] }

/-- Node 2 of the chain. -/
def chain2 : Node := { Id := 2, Pid := 1, ChildIds := [3] }

/-- Node 3 of the chain. -/
def chain3 : Node := { Id := 3, Pid := 2, ChildIds := [4] }

/-- Node 4 of the chain. -/
def chain4 : Node := { Id := 4, Pid := 3, ChildIds := [5] }

/-- Node 5 of the chain, its leaf. -/
def chain5 : Node := { Id := 5, Pid := 4, ChildIds := [] }

/-- The chain 1 -> 2 -> 3 -> 4 -> 5, in which node 5 lies at level 4. -/
def chainTree : SafeMultiBranchTree :=
  { RootId := 1
    Nodes := [(5, StoreValue.node chain5), (3, StoreValue.node chain3),
              (1, StoreValue.node chain1), (4, StoreValue.node chain4),
              (2, StoreValue.node chain2)] }

/-! ## Store enumeration and the getters built on it -/

/-- The call `t.Nodes.Range(f)`: the entries handed to the visitor, one for each key. A map
holds one value for each key, so an entry of the association list that is shadowed by an earlier
entry with the same key is left out. The order of enumeration of the real store is not fixed;
the model takes the order of the list, and the properties proved about it are stated on
membership and on counts. -/
def Range : List (Int × StoreValue) → List (Int × StoreValue)
  | [] => []
  | (k, v) :: rest => (k, v) :: (Range rest).filter (fun e => decide (e.1 ≠ k))

/-- The call `t.Nodes.Delete(c)`, the external removal of the entry with key `c`. -/
def Delete (l : List (Int × StoreValue)) (c : Int) : List (Int × StoreValue) :=
  l.filter (fun e => decide (e.1 ≠ c))

/-- The tree after the external removal of the store entry for `c`; nothing else changes. -/
def deleteNode (t : SafeMultiBranchTree) (c : Int) : SafeMultiBranchTree :=
  { RootId := t.RootId, Nodes := Delete t.Nodes c }

/-- Modelled from the spec: the helper `getIdFromArgs` is not part of the visible source. It
reads the optional id of `GetLeafNodes`: `none` (`exist == false`) when no argument is
passed, the first argument otherwise. -/
def getIdFromArgs (args : List Int) : Option Int := args.head?

/-- The visitor that `GetLeafNodes` passes to `Range` (lines 38-43), applied to one entry. The
accumulator is `none` once the visitor has panicked. The type assertion `v.(*Node)` succeeds for
a nil `*Node` too, and `node.IsLeaf()` is then called on the nil pointer. The method `IsLeaf`
is not part of the visible source, so its outcome on a nil receiver is the parameter
`nilLeaf`: `none` for a nil dereference, `some b` when it returns `b`. -/
def leafVisit (nilLeaf : Option Bool) (acc : Option (List (Option Node)))
    (e : Int × StoreValue) : Option (List (Option Node)) :=
  match acc with
  | none => none
  | some leafNodes =>
    match e.2 with
    | StoreValue.node node =>
      if node.IsLeaf then some (leafNodes ++ [some node]) else some leafNodes
    | StoreValue.nilNode =>
      match nilLeaf with
      | none => none
      | some true => some (leafNodes ++ [none])
      | some false => some leafNodes
    | StoreValue.other => some leafNodes

/-- Modelled from the spec: the method `IsLeaf` is not part of the visible source. The spec
defines the property for a node (true iff `childIds` is empty) and asks that a malformed store
entry degrades silently, never with a panic. In the model of the spec a call on a nil receiver
therefore returns, and returns false: a nil pointer is no node with an empty child list. -/
def nilIsLeaf : Option Bool := some false

/-- The entry holds a node whose child list is empty. -/
def isLeafEntry (e : Int × StoreValue) : Bool :=
  match e.2 with
  | StoreValue.node node => node.IsLeaf
  | StoreValue.nilNode => false
  | StoreValue.other => false

/-- The keys of the store that hold a node whose child list is empty, each once, in the order
of enumeration. -/
def leafKeys (t : SafeMultiBranchTree) : List Int :=
  ((Range t.Nodes).filter isLeafEntry).map Prod.fst

/-- The node held by a store value, if it is a non-nil `*Node`. -/
def entryNode (v : StoreValue) : Option Node :=
  match v with
  | StoreValue.node node => some node
  | StoreValue.nilNode => none
  | StoreValue.other => none

/-- One iteration of the loop of `GetLeafNodes` over the traversal (lines 47-51). -/
def leafStep (t : SafeMultiBranchTree) (leafNodes : List (Option Node)) (nid : Int) :
    List (Option Node) :=
  match GetNode t nid with
  | some node => if node.IsLeaf then leafNodes ++ [some node] else leafNodes
  | none => leafNodes

/-- The method `GetLeafNodes` (lines 30-53). The method `t.DepthFirstTraversal` is not part of
the visible source and is passed as `dft`: `dft t id` is the sequence of ids that the loop
receives. An element `none` of the result is a nil pointer in the returned slice; the result
`none` says that the call panicked. -/
def GetLeafNodes (nilLeaf : Option Bool) (dft : SafeMultiBranchTree → Int → List Int)
    (t : SafeMultiBranchTree) (args : List Int) : Option (List (Option Node)) :=
  match getIdFromArgs args with
  | none => (Range t.Nodes).foldl (leafVisit nilLeaf) (some [])
  | some id => some ((dft t id).foldl (leafStep t) [])

/-- The visitor that `GetAllNodes` passes to `Range` (lines 142-147), applied to one entry: the
type assertion `v.(*Node)` succeeds for every `*Node`, nil or not, and the pointer is
appended. -/
def allVisit (allNodes : List (Option Node)) (e : Int × StoreValue) : List (Option Node) :=
  match e.2 with
  | StoreValue.node node => allNodes ++ [some node]
  | StoreValue.nilNode => allNodes ++ [none]
  | StoreValue.other => allNodes

/-- The method `GetAllNodes` (lines 139-149). The result is never the nil slice; an element
`none` is a nil pointer in the returned slice. -/
def GetAllNodes (t : SafeMultiBranchTree) : List (Option Node) :=
  (Range t.Nodes).foldl allVisit []

/-- Modelled from the spec: the type `FilterFunc` is not part of the visible source; it is a
predicate over a `*Node`. -/
abbrev FilterFunc := Option Node → Bool

/-- Modelled from the spec: the helper `getFilterFromArgs` is not part of the visible source.
With no filter supplied the default filter accepts every node; otherwise the supplied filter is
used. -/
def getFilterFromArgs (args : List FilterFunc) : FilterFunc :=
  match args with
  | [] => fun _ => true
  | f :: _ => f

/-- The visitor that `GetDescendantNodes` passes to `Range` (lines 177-182), applied to one
entry. -/
def descendantVisit (filter : FilterFunc) (nodes : List (Option Node))
    (e : Int × StoreValue) : List (Option Node) :=
  match e.2 with
  | StoreValue.node node => if filter (some node) then nodes ++ [some node] else nodes
  | StoreValue.nilNode => if filter none then nodes ++ [none] else nodes
  | StoreValue.other => nodes

/-- The method `GetDescendantNodes` (lines 168-184). The method `t.SubTree` is not part of the
visible source and is passed as `sub`; `none` is the nil slice. -/
def GetDescendantNodes (sub : SafeMultiBranchTree → Int → Option SafeMultiBranchTree)
    (t : SafeMultiBranchTree) (id : Int) (args : List FilterFunc) :
    Option (List (Option Node)) :=
  match sub t id with
  | none => none
  | some subtree =>
    some ((Range subtree.Nodes).foldl (descendantVisit (getFilterFromArgs args)) [])

/-! ## Traversal and subtree -/

/-- The id `c` is in the child list of the node that `a` resolves to. -/
def ChildLink (t : SafeMultiBranchTree) (a c : Int) : Prop :=
  ∃ n, GetNode t a = some n ∧ c ∈ n.ChildIds

/-- The number of child ids held by a store value. -/
def childCount : StoreValue → Nat
  | StoreValue.node n => n.ChildIds.length
  | StoreValue.nilNode => 0
  | StoreValue.other => 0

/-- A bound on the number of ids that a traversal takes from its stack: the start id and, for
each visited node, its child ids. -/
def traversalFuel (t : SafeMultiBranchTree) : Nat :=
  1 + (t.Nodes.map (fun e => childCount e.2)).sum

/-- The number of child ids held by the entries whose key is not in `out`: a bound on the ids
that the traversal can still put on its stack once the ids of `out` are yielded. -/
def pendingChildren (l : List (Int × StoreValue)) (out : List Int) : Nat :=
  ((l.filter fun e => decide (e.1 ∉ out)).map fun e => childCount e.2).sum

/-- Modelled from the spec: the loop of the depth-first traversal. `stack` holds the ids still
to visit and `out` the ids yielded so far. An id that was yielded before or that does not
resolve is passed over; otherwise the id is yielded and its child ids are put in front of the
stack in `childIds` order, which gives the pre-order. -/
def dftLoop (t : SafeMultiBranchTree) : Nat → List Int → List Int → List Int
  | 0, _, out => out
  | _ + 1, [], out => out
  | fuel + 1, id :: stack, out =>
    if id ∈ out then dftLoop t fuel stack out
    else
      match GetNode t id with
      | none => dftLoop t fuel stack out
      | some n => dftLoop t fuel (n.ChildIds ++ stack) (out ++ [id])

/-- Modelled from the spec: the method `DepthFirstTraversal` is not part of the visible source.
It yields the node ids reachable from `id` by visiting `id`, then each child in `childIds`
order (pre-order), and does not visit a node twice. The fuel `traversalFuel t` is enough for
the loop to stop on an empty stack (`mem_DepthFirstTraversal_iff`). -/
def DepthFirstTraversal (t : SafeMultiBranchTree) (id : Int) : List Int :=
  dftLoop t (traversalFuel t) [id] []

/-- The store entry that `SubTree` makes for a traversed id: a copy of the node under its id. -/
def copyEntry (t : SafeMultiBranchTree) (nid : Int) : Option (Int × StoreValue) :=
  match GetNode t nid with
  | some n => some (nid, StoreValue.node n)
  | none => none

/-- Modelled from the spec: the method `SubTree` is not part of the visible source. It returns
nil when `id` does not resolve; otherwise a new tree whose root is `id` and whose store holds a
copy of each node reachable via `DepthFirstTraversal id`. -/
def SubTree (t : SafeMultiBranchTree) (id : Int) : Option SafeMultiBranchTree :=
  match GetNode t id with
  | none => none
  | some _ =>
    some { RootId := id, Nodes := (DepthFirstTraversal t id).filterMap (copyEntry t) }

/-- A root without children. -/
def loneRoot : Node := { Id := 1, Pid := 0, ChildIds := [] }

/-- A store with a node, a nil `*Node` and a value of another type: key 1 holds the leaf
`loneRoot`, key 2 a nil node pointer, key 3 a value that is not a `*Node`. -/
def malformedTree : SafeMultiBranchTree :=
  { RootId := 1
    Nodes := [(1, StoreValue.node loneRoot), (2, StoreValue.nilNode), (3, StoreValue.other)] }

/-- A node with id 2 whose parent id is 1. -/
def badNode : Node := { Id := 2, Pid := 1, ChildIds := [] }

/-- A store in which the keys are not the ids of the nodes: the node with id 2 is stored under
its own id and under the root id 1 as well. The parent chain of id 2 reaches the root key after
one link. -/
def badKeyTree : SafeMultiBranchTree :=
  { RootId := 1
    Nodes := [(1, StoreValue.node badNode), (2, StoreValue.node badNode)] }

/-! ## Lemmas on the store -/

theorem Load_mem (l : List (Int × StoreValue)) (id : Int) (v : StoreValue)
    (h : Load l id = some v) : (id, v) ∈ l := by
  induction l with
  | nil => simp [Load] at h
  | cons e rest ih =>
    obtain ⟨k, w⟩ := e
    unfold Load at h
    split_ifs at h with hk
    · cases h
      subst hk
      exact List.mem_cons_self _ _
    · exact List.mem_cons_of_mem _ (ih h)

theorem GetNode_eq_some_iff (t : SafeMultiBranchTree) (id : Int) (n : Node) :
    GetNode t id = some n ↔ Load t.Nodes id = some (StoreValue.node n) := by
  unfold GetNode
  cases h : Load t.Nodes id with
  | none => simp
  | some v => cases v <;> simp

theorem GetNode_mem (t : SafeMultiBranchTree) (id : Int) (n : Node)
    (h : GetNode t id = some n) : (id, StoreValue.node n) ∈ t.Nodes :=
  Load_mem _ _ _ ((GetNode_eq_some_iff t id n).mp h)

theorem foldl_appendResolved (t : SafeMultiBranchTree) (l : List Int) :
    ∀ acc : List Node, l.foldl (appendResolved t) acc = acc ++ l.filterMap (GetNode t) := by
  induction l with
  | nil => intro acc; simp
  | cons c rest ih =>
    intro acc
    rw [List.foldl_cons, ih]
    unfold appendResolved
    cases h : GetNode t c <;> simp [List.filterMap_cons, h]

theorem foldl_appendSibling (t : SafeMultiBranchTree) (id : Int) (l : List Int) :
    ∀ acc : List Node, l.foldl (appendSibling t id) acc =
      acc ++ (l.filter (fun c => decide (c ≠ id))).filterMap (GetNode t) := by
  induction l with
  | nil => intro acc; simp
  | cons c rest ih =>
    intro acc
    rw [List.foldl_cons, ih]
    unfold appendSibling
    by_cases hc : c = id
    · simp [hc]
    · cases h : GetNode t c <;> simp [List.filter_cons, List.filterMap_cons, hc, h]

theorem GetParentNode_of_GetNode (t : SafeMultiBranchTree) (id : Int) (n : Node)
    (h : GetNode t id = some n) : GetParentNode t id = GetNode t n.Pid := by
  unfold GetParentNode
  rw [h]

theorem GetChildNodes_of_GetNode (t : SafeMultiBranchTree) (id : Int) (n : Node)
    (h : GetNode t id = some n) :
    GetChildNodes t id = some (n.ChildIds.filterMap (GetNode t)) := by
  unfold GetChildNodes
  rw [h]
  simp only [foldl_appendResolved, List.nil_append]

theorem selfRootTree_invariant : DataModelInvariant selfRootTree := by
  intro n hn hne
  have hmem := GetNode_mem _ _ _ hn
  simp only [selfRootTree, List.mem_cons, Prod.mk.injEq, StoreValue.node.injEq,
    List.mem_nil_iff, or_false] at hmem
  rcases hmem with ⟨h1, h2⟩ | ⟨h1, h2⟩ | ⟨h1, h2⟩ | ⟨h1, h2⟩
  · exact absurd h1 hne
  · subst h2; exact ⟨selfRoot, by decide, by decide, by decide⟩
  · subst h2; exact ⟨selfRoot, by decide, by decide, by decide⟩
  · subst h2; exact ⟨node2, by decide, by decide, by decide⟩

/-! ## Lemmas on the level -/

theorem HasLevel_zero_iff (t : SafeMultiBranchTree) (id : Int) :
    HasLevel t id 0 ↔ id = t.RootId ∧ ∃ n, GetNode t id = some n := by
  unfold HasLevel
  simp only [levelWalk]
  cases h : GetNode t id with
  | none => simp
  | some n =>
    by_cases hr : id = t.RootId
    · simp [hr]
    · simp [hr]

theorem HasLevel_succ_iff (t : SafeMultiBranchTree) (id : Int) (k : Nat) :
    HasLevel t id (k + 1) ↔
      id ≠ t.RootId ∧ ∃ n, GetNode t id = some n ∧ HasLevel t n.Pid k := by
  unfold HasLevel
  rw [levelWalk]
  cases h : GetNode t id with
  | none => simp
  | some n =>
    by_cases hr : id = t.RootId
    · simp [hr]
    · simp [hr]

theorem HasLevel_resolves (t : SafeMultiBranchTree) (id : Int) (k : Nat)
    (h : HasLevel t id k) : ∃ n, GetNode t id = some n := by
  cases k with
  | zero => exact ((HasLevel_zero_iff t id).mp h).2
  | succ k =>
    obtain ⟨-, n, hn, -⟩ := (HasLevel_succ_iff t id k).mp h
    exact ⟨n, hn⟩

theorem HasLevel_unique (t : SafeMultiBranchTree) (k : Nat) :
    ∀ (id : Int) (j : Nat), HasLevel t id k → HasLevel t id j → k = j := by
  induction k with
  | zero =>
    intro id j hk hj
    cases j with
    | zero => rfl
    | succ j =>
      exact absurd ((HasLevel_zero_iff t id).mp hk).1 ((HasLevel_succ_iff t id j).mp hj).1
  | succ k ih =>
    intro id j hk hj
    obtain ⟨hne, n, hn, hk'⟩ := (HasLevel_succ_iff t id k).mp hk
    cases j with
    | zero => exact absurd ((HasLevel_zero_iff t id).mp hj).1 hne
    | succ j =>
      obtain ⟨-, m, hm, hj'⟩ := (HasLevel_succ_iff t id j).mp hj
      rw [hn] at hm
      cases hm
      rw [ih n.Pid j hk' hj']

theorem levelWalk_mono (t : SafeMultiBranchTree) (f : Nat) :
    ∀ (id : Int) (k g : Nat), levelWalk t f id = some k → f ≤ g →
      levelWalk t g id = some k := by
  induction f with
  | zero => intro id k g h; simp [levelWalk] at h
  | succ f ih =>
    intro id k g h hfg
    obtain ⟨g, rfl⟩ : ∃ g0, g = g0 + 1 := ⟨g - 1, by omega⟩
    rw [levelWalk] at h ⊢
    cases hn : GetNode t id with
    | none => rw [hn] at h; cases h
    | some n =>
      rw [hn] at h
      by_cases hr : id = t.RootId
      · simpa [hr] using h
      · simp only [hr, if_false, Option.map_eq_some'] at h ⊢
        obtain ⟨a, ha, rfl⟩ := h
        exact ⟨a, ih n.Pid a g ha (by omega), rfl⟩

/-- The nodes on a walk that reaches the root are distinct stored nodes. -/
theorem HasLevel_chain (t : SafeMultiBranchTree) (k : Nat) :
    ∀ id : Int, HasLevel t id k →
      ∃ c : List Int, c.length = k + 1 ∧ c.Nodup ∧
        ∀ x ∈ c, (∃ j, j ≤ k ∧ HasLevel t x j) ∧ x ∈ t.Nodes.map Prod.fst := by
  induction k with
  | zero =>
    intro id h
    obtain ⟨n, hn⟩ := HasLevel_resolves t id 0 h
    refine ⟨[id], rfl, List.nodup_singleton id, ?_⟩
    intro x hx
    rw [List.mem_singleton] at hx
    subst hx
    exact ⟨⟨0, le_refl 0, h⟩, List.mem_map.mpr ⟨_, GetNode_mem t x n hn, rfl⟩⟩
  | succ k ih =>
    intro id h
    obtain ⟨-, n, hn, hk⟩ := (HasLevel_succ_iff t id k).mp h
    obtain ⟨c, hlen, hnd, hc⟩ := ih n.Pid hk
    refine ⟨id :: c, by simp [hlen], List.nodup_cons.mpr ⟨?_, hnd⟩, ?_⟩
    · intro hmem
      obtain ⟨⟨j, hj, hlv⟩, -⟩ := hc id hmem
      have := HasLevel_unique t (k + 1) id j h hlv
      omega
    · intro x hx
      rcases List.mem_cons.mp hx with rfl | hx
      · exact ⟨⟨k + 1, le_refl _, h⟩, List.mem_map.mpr ⟨_, GetNode_mem t x n hn, rfl⟩⟩
      · obtain ⟨⟨j, hj, hlv⟩, hkey⟩ := hc x hx
        exact ⟨⟨j, by omega, hlv⟩, hkey⟩

/-- A walk that reaches the root visits at most as many nodes as the store has entries. -/
theorem HasLevel_lt_length (t : SafeMultiBranchTree) (id : Int) (k : Nat)
    (h : HasLevel t id k) : k < t.Nodes.length := by
  obtain ⟨c, hlen, hnd, hc⟩ := HasLevel_chain t k id h
  have hsub : c ⊆ t.Nodes.map Prod.fst := fun x hx => (hc x hx).2
  have hle := (List.subperm_of_subset hnd hsub).length_le
  rw [List.length_map, hlen] at hle
  omega

/-- The model `Level` returns the number of parent links to the root wherever it exists. -/
theorem Level_isLevelFn (t : SafeMultiBranchTree) : IsLevelFn (Level t) t := by
  intro id k h
  have hlt := HasLevel_lt_length t id k h
  have hw := levelWalk_mono t (k + 1) id k t.Nodes.length h (by omega)
  unfold Level
  rw [hw]

/-! ## Lemmas on the parent chain and on the loop of `GetAncestorNode` -/

/-- Every node on the parent chain of `id` lies at most `k` links above `id`, and its level is
`k` minus its distance from `id`. -/
theorem nthAncestor_level (t : SafeMultiBranchTree) (hkeys : KeysAreIds t) (j : Nat) :
    ∀ (id : Int) (k : Nat) (b : Node), HasLevel t id k → nthAncestor t j id = some b →
      j ≤ k ∧ HasLevel t b.Id (k - j) := by
  induction j with
  | zero =>
    intro id k b hk hb
    rw [nthAncestor] at hb
    rw [hkeys id b hb]
    exact ⟨Nat.zero_le k, hk⟩
  | succ j ih =>
    intro id k b hk hb
    rw [nthAncestor] at hb
    by_cases hr : id = t.RootId
    · simp [hr] at hb
    · rw [if_neg hr] at hb
      cases k with
      | zero => exact absurd ((HasLevel_zero_iff t id).mp hk).1 hr
      | succ k =>
        obtain ⟨-, n, hn, hk'⟩ := (HasLevel_succ_iff t id k).mp hk
        rw [hn] at hb
        obtain ⟨hle, hlv⟩ := ih n.Pid k b hk' hb
        refine ⟨by omega, ?_⟩
        rw [Nat.add_sub_add_right]
        exact hlv

/-- The loop started at a stored node `a` that lies `m` levels below the target level returns
the node `m` links above `a` after `m + 1` iterations. -/
theorem ancestorLoop_returns (lvl : Int → Int) (t : SafeMultiBranchTree)
    (hkeys : KeysAreIds t) (hlvl : IsLevelFn lvl t) (L m : Nat) :
    ∀ a : Node, GetNode t a.Id = some a → HasLevel t a.Id (L + m) →
      ∃ b, nthAncestor t m a.Id = some b ∧
        ∀ fuel, m + 1 ≤ fuel →
          ancestorLoop lvl t (L : Int) fuel a ((L + m : Nat) : Int) = some (some b) := by
  induction m with
  | zero =>
    intro a ha _
    refine ⟨a, by rw [nthAncestor]; exact ha, ?_⟩
    intro fuel hf
    obtain ⟨fuel, rfl⟩ : ∃ g, fuel = g + 1 := ⟨fuel - 1, by omega⟩
    rw [ancestorLoop]
    simp
  | succ m ih =>
    intro a ha hk
    obtain ⟨hne, n, hn, hk'⟩ := (HasLevel_succ_iff t a.Id (L + m)).mp hk
    rw [ha] at hn
    cases hn
    obtain ⟨next, hnext⟩ := HasLevel_resolves t a.Pid (L + m) hk'
    have hid : next.Id = a.Pid := hkeys a.Pid next hnext
    have hnext' : GetNode t next.Id = some next := by rw [hid]; exact hnext
    have hk'' : HasLevel t next.Id (L + m) := by rw [hid]; exact hk'
    obtain ⟨b, hb, hloop⟩ := ih next hnext' hk''
    refine ⟨b, ?_, ?_⟩
    · rw [nthAncestor, if_neg hne, ha]
      simp only []
      rw [← hid]
      exact hb
    · intro fuel hf
      obtain ⟨fuel, rfl⟩ : ∃ g, fuel = g + 1 := ⟨fuel - 1, by omega⟩
      rw [ancestorLoop]
      have h1 : ¬ (((L + (m + 1) : Nat) : Int) = (L : Int)) := by omega
      have h2 : ¬ (((L + (m + 1) : Nat) : Int) = 0) := by omega
      rw [if_neg h1, if_neg h2, hnext]
      simp only []
      rw [hlvl next.Id (L + m) hk'']
      exact hloop fuel (by omega)

/-- The tree of the scenarios of the spec is well formed. -/
theorem specTree_wellFormed : WellFormed specTree := by
  constructor
  · intro id n hn
    have hmem := GetNode_mem _ _ _ hn
    simp only [specTree, List.mem_cons, Prod.mk.injEq, StoreValue.node.injEq,
      List.mem_nil_iff, or_false] at hmem
    rcases hmem with ⟨h1, h2⟩ | ⟨h1, h2⟩ | ⟨h1, h2⟩ | ⟨h1, h2⟩ <;> subst h1 <;> subst h2 <;> rfl
  · intro id n hn _
    have hmem := GetNode_mem _ _ _ hn
    simp only [specTree, List.mem_cons, Prod.mk.injEq, StoreValue.node.injEq,
      List.mem_nil_iff, or_false] at hmem
    rcases hmem with ⟨h1, h2⟩ | ⟨h1, h2⟩ | ⟨h1, h2⟩ | ⟨h1, h2⟩ <;> subst h1
    · exact ⟨0, by decide⟩
    · exact ⟨1, by decide⟩
    · exact ⟨1, by decide⟩
    · exact ⟨2, by decide⟩

/-- The chain 1 -> 2 -> 3 -> 4 -> 5 is well formed. -/
theorem chainTree_wellFormed : WellFormed chainTree := by
  constructor
  · intro id n hn
    have hmem := GetNode_mem _ _ _ hn
    simp only [chainTree, List.mem_cons, Prod.mk.injEq, StoreValue.node.injEq,
      List.mem_nil_iff, or_false] at hmem
    rcases hmem with ⟨h1, h2⟩ | ⟨h1, h2⟩ | ⟨h1, h2⟩ | ⟨h1, h2⟩ | ⟨h1, h2⟩ <;>
      subst h1 <;> subst h2 <;> rfl
  · intro id n hn _
    have hmem := GetNode_mem _ _ _ hn
    simp only [chainTree, List.mem_cons, Prod.mk.injEq, StoreValue.node.injEq,
      List.mem_nil_iff, or_false] at hmem
    rcases hmem with ⟨h1, h2⟩ | ⟨h1, h2⟩ | ⟨h1, h2⟩ | ⟨h1, h2⟩ | ⟨h1, h2⟩ <;> subst h1
    · exact ⟨4, by decide⟩
    · exact ⟨2, by decide⟩
    · exact ⟨0, by decide⟩
    · exact ⟨3, by decide⟩
    · exact ⟨1, by decide⟩

/-! ## Theorems on the getters -/

/-- C1: for every tree and every id, `GetNode` is a total function that returns nil iff the
store has no entry for the id or the entry is not a non-nil node, and that returns a node iff
that node is the value stored under the id. -/
theorem GetNode_spec (t : SafeMultiBranchTree) (id : Int) :
    (GetNode t id = none ↔
      (Load t.Nodes id = none ∨
        ∃ v, Load t.Nodes id = some v ∧ ∀ n, v ≠ StoreValue.node n)) ∧
    (∀ n, GetNode t id = some n ↔ Load t.Nodes id = some (StoreValue.node n)) := by
  refine ⟨?_, fun n => GetNode_eq_some_iff t id n⟩
  unfold GetNode
  cases h : Load t.Nodes id with
  | none => simp
  | some v => cases v <;> simp

/-- C2 (counterexample): the tree 1 -> {2, 3}, 2 -> {4} whose root carries its own id as parent
id is populated and satisfies the invariant of the data model, its root is stored, and yet
`GetParentNode` of the root id is the root node, not nil. -/
theorem GetParentNode_root_not_nil :
    Populated selfRootTree ∧ DataModelInvariant selfRootTree ∧
    StoredNode selfRootTree selfRoot ∧ selfRoot.Id = selfRootTree.RootId ∧
    GetParentNode selfRootTree selfRoot.Id = some selfRoot ∧
    ¬ (GetParentNode selfRootTree selfRoot.Id = none ↔ selfRoot.Id = selfRootTree.RootId) :=
  ⟨⟨selfRoot, by decide⟩, selfRootTree_invariant, by decide, by decide, by decide, by decide⟩

/-- C2 (amended): in a tree that satisfies the invariant of the data model, for every stored
node `n`, `GetParentNode n.Id` is nil iff `n.Id` is the root id and the parent id of the root
does not resolve. -/
theorem GetParentNode_nil_iff (t : SafeMultiBranchTree) (hinv : DataModelInvariant t)
    (n : Node) (hn : StoredNode t n) :
    GetParentNode t n.Id = none ↔ (n.Id = t.RootId ∧ GetNode t n.Pid = none) := by
  rw [GetParentNode_of_GetNode t n.Id n hn]
  constructor
  · intro h
    refine ⟨?_, h⟩
    by_contra hne
    obtain ⟨p, hps, hpid, -⟩ := hinv n hn hne
    unfold StoredNode at hps
    rw [hpid, h] at hps
    cases hps
  · exact fun h => h.2

/-- C2 (amended), instance: node 4 of the tree whose root is its own parent. -/
theorem GetParentNode_nil_iff_witness :
    DataModelInvariant selfRootTree ∧ StoredNode selfRootTree node4 ∧
    (GetParentNode selfRootTree node4.Id = none ↔
      (node4.Id = selfRootTree.RootId ∧ GetNode selfRootTree node4.Pid = none)) :=
  ⟨selfRootTree_invariant, by decide,
    GetParentNode_nil_iff selfRootTree selfRootTree_invariant node4 (by decide)⟩

/-- C3 (counterexample): in the tree 1 -> {2, 3}, 2 -> {4} whose root carries its own id as
parent id, which satisfies the invariant of the data model, the parent of the stored root
resolves (to the root itself), and the root is not among the child nodes of that parent. -/
theorem root_not_in_GetChildNodes_of_parent :
    DataModelInvariant selfRootTree ∧ StoredNode selfRootTree selfRoot ∧
    GetParentNode selfRootTree selfRoot.Id = some selfRoot ∧
    GetChildNodes selfRootTree selfRoot.Id = some [node2, node3] ∧
    ¬ (∃ cs, GetChildNodes selfRootTree selfRoot.Id = some cs ∧ selfRoot ∈ cs) := by
  refine ⟨selfRootTree_invariant, by decide, by decide, by decide, ?_⟩
  rintro ⟨cs, hcs, hmem⟩
  have h : GetChildNodes selfRootTree selfRoot.Id = some [node2, node3] := by decide
  rw [h] at hcs
  cases hcs
  revert hmem
  decide

/-- C3 (amended): in a tree that satisfies the invariant of the data model, every stored node
`n` other than the root whose parent resolves to `p` appears in `GetChildNodes p.Id`. -/
theorem mem_GetChildNodes_of_parent (t : SafeMultiBranchTree) (hinv : DataModelInvariant t)
    (n p : Node) (hn : StoredNode t n) (hne : n.Id ≠ t.RootId)
    (hp : GetParentNode t n.Id = some p) :
    ∃ cs, GetChildNodes t p.Id = some cs ∧ n ∈ cs := by
  obtain ⟨q, hqs, hqid, hmem⟩ := hinv n hn hne
  have hpq : p = q := by
    rw [GetParentNode_of_GetNode t n.Id n hn] at hp
    unfold StoredNode at hqs
    rw [hqid, hp] at hqs
    exact Option.some.inj hqs
  subst hpq
  exact ⟨p.ChildIds.filterMap (GetNode t), GetChildNodes_of_GetNode t p.Id p hqs,
    List.mem_filterMap.mpr ⟨n.Id, hmem, hn⟩⟩

/-- C3 (amended), instance: node 4 and its parent node 2 in the tree 1 -> {2, 3}, 2 -> {4}. -/
theorem mem_GetChildNodes_of_parent_witness :
    DataModelInvariant selfRootTree ∧ StoredNode selfRootTree node4 ∧
    node4.Id ≠ selfRootTree.RootId ∧ GetParentNode selfRootTree node4.Id = some node2 ∧
    ∃ cs, GetChildNodes selfRootTree node2.Id = some cs ∧ node4 ∈ cs :=
  ⟨selfRootTree_invariant, by decide, by decide, by decide,
    mem_GetChildNodes_of_parent selfRootTree selfRootTree_invariant node4 node2
      (by decide) (by decide) (by decide)⟩

/-- C4: when `id` resolves to the node `n`, `GetChildNodes id` is the list got by mapping
`GetNode` over `n.ChildIds` in order and dropping the ids that do not resolve; so a node is in
the result iff it is the node of a resolvable id of `n.ChildIds`. -/
theorem GetChildNodes_eq_filterMap (t : SafeMultiBranchTree) (id : Int) (n : Node)
    (h : GetNode t id = some n) :
    GetChildNodes t id = some (n.ChildIds.filterMap (GetNode t)) ∧
    ∀ c, (∃ cs, GetChildNodes t id = some cs ∧ c ∈ cs) ↔
      ∃ childId, childId ∈ n.ChildIds ∧ GetNode t childId = some c := by
  have heq : GetChildNodes t id = some (n.ChildIds.filterMap (GetNode t)) :=
    GetChildNodes_of_GetNode t id n h
  refine ⟨heq, fun c => ?_⟩
  rw [heq]
  constructor
  · rintro ⟨cs, hcs, hc⟩
    cases hcs
    exact List.mem_filterMap.mp hc
  · intro hc
    exact ⟨_, rfl, List.mem_filterMap.mpr hc⟩

/-- C4, instance: the children of node 1 in the tree 1 -> {2, 3}, 2 -> {4}. -/
theorem GetChildNodes_eq_filterMap_witness :
    GetNode specTree 1 = some node1 ∧
    GetChildNodes specTree 1 = some (node1.ChildIds.filterMap (GetNode specTree)) ∧
    GetChildNodes specTree 1 = some [node2, node3] :=
  ⟨by decide, (GetChildNodes_eq_filterMap specTree 1 node1 (by decide)).1, by decide⟩

/-- C5: for an id other than the root id, when the parent of `id` resolves to `p`,
`GetSiblingNodes id` is the list got from `p.ChildIds`, in order, by removing the entries equal
to `id` and dropping the entries that do not resolve; when the parent does not resolve the
result is nil. On the tree 1 -> {2, 3}, 2 -> {4}, `GetSiblingNodes 2` is `[node 3]`. -/
theorem GetSiblingNodes_spec (t : SafeMultiBranchTree) (id : Int) (hid : id ≠ t.RootId) :
    (∀ p, GetParentNode t id = some p →
      GetSiblingNodes t id =
        some ((p.ChildIds.filter (fun c => decide (c ≠ id))).filterMap (GetNode t))) ∧
    (GetParentNode t id = none → GetSiblingNodes t id = none) ∧
    GetSiblingNodes specTree 2 = some [node3] := by
  refine ⟨fun p hp => ?_, fun hp => ?_, by decide⟩
  · unfold GetSiblingNodes
    rw [if_neg hid, hp]
    simp only [foldl_appendSibling, List.nil_append]
  · unfold GetSiblingNodes
    rw [if_neg hid, hp]

/-- C5, instance: the siblings of node 2 in the tree 1 -> {2, 3}, 2 -> {4}, computed from the
child list `[2, 3]` of its parent node 1. -/
theorem GetSiblingNodes_spec_witness :
    (2 : Int) ≠ specTree.RootId ∧ GetParentNode specTree 2 = some node1 ∧
    GetSiblingNodes specTree 2 =
      some ((node1.ChildIds.filter (fun c => decide (c ≠ 2))).filterMap (GetNode specTree)) :=
  ⟨by decide, by decide, (GetSiblingNodes_spec specTree 2 (by decide)).1 node1 (by decide)⟩

/-- C6: for every tree, whatever its store holds, `GetSiblingNodes` of the root id is nil. -/
theorem GetSiblingNodes_root (t : SafeMultiBranchTree) : GetSiblingNodes t t.RootId = none := by
  unfold GetSiblingNodes
  rw [if_pos rfl]

/-- C7: let `lvl` be the method `Level` that `GetAncestorNode` calls. When the number `k` of
parent links from `id` to the root exists and `lvl id` is that number, `level >= lvl id` makes
`GetAncestorNode id level` return nil, before the loop and so for every fuel. For a level other
than 0 the same holds for every tree, every id and every function `lvl`. -/
theorem GetAncestorNode_nil_of_level_ge (lvl : Int → Int) (fuel : Nat)
    (t : SafeMultiBranchTree) (id level : Int) (h : lvl id ≤ level) :
    (∀ k, HasLevel t id k → IsLevelFn lvl t →
      GetAncestorNode lvl fuel t id level = some none) ∧
    (level ≠ 0 → GetAncestorNode lvl fuel t id level = some none) := by
  have hgen : level ≠ 0 → GetAncestorNode lvl fuel t id level = some none := by
    intro h0
    unfold GetAncestorNode
    by_cases hr : id = t.RootId
    · rw [if_pos hr]
    · rw [if_neg hr]
      cases hn : GetNode t id with
      | none => rfl
      | some n =>
        cases hp : GetNode t n.Pid with
        | none => simp only [hp]
        | some p =>
          simp only [hp]
          rw [if_neg h0, if_pos (ge_iff_le.mpr h)]
  refine ⟨fun k hk hlvl => ?_, hgen⟩
  by_cases hr : id = t.RootId
  · unfold GetAncestorNode
    rw [if_pos hr]
  · apply hgen
    cases k with
    | zero => exact absurd ((HasLevel_zero_iff t id).mp hk).1 hr
    | succ k =>
      have := hlvl id (k + 1) hk
      omega

/-- C7, instance: node 4 of the tree 1 -> {2, 3}, 2 -> {4} has level 2, and asking for its
ancestor at level 2 gives nil. -/
theorem GetAncestorNode_nil_of_level_ge_witness :
    Level specTree 4 ≤ 2 ∧ HasLevel specTree 4 2 ∧ IsLevelFn (Level specTree) specTree ∧
    GetAncestorNode (Level specTree) 0 specTree 4 2 = some none :=
  ⟨by decide, by decide, Level_isLevelFn specTree,
    (GetAncestorNode_nil_of_level_ge (Level specTree) 0 specTree 4 2 (by decide)).1 2
      (by decide) (Level_isLevelFn specTree)⟩

/-- C8: for every tree, every id other than the root id, every function `lvl` standing for the
method `Level` and every fuel, `GetAncestorNode id 0` returns `GetParentNode id`: the result
does not depend on `lvl` and no loop iteration is needed. -/
theorem GetAncestorNode_zero (lvl : Int → Int) (fuel : Nat) (t : SafeMultiBranchTree)
    (id : Int) (hid : id ≠ t.RootId) :
    GetAncestorNode lvl fuel t id 0 = some (GetParentNode t id) := by
  unfold GetAncestorNode GetParentNode
  rw [if_neg hid]
  cases hn : GetNode t id with
  | none => rfl
  | some n =>
    cases hp : GetNode t n.Pid with
    | none => simp only [hp]
    | some p => simp only [hp, if_true]

/-- C8, instance: the level 0 ancestor of node 4 in the tree 1 -> {2, 3}, 2 -> {4} is its parent
node 2, whatever the level function. -/
theorem GetAncestorNode_zero_witness :
    (4 : Int) ≠ specTree.RootId ∧ GetParentNode specTree 4 = some node2 ∧
    GetAncestorNode (fun _ => 7) 0 specTree 4 0 = some (GetParentNode specTree 4) :=
  ⟨by decide, by decide, GetAncestorNode_zero (fun _ => 7) 0 specTree 4 (by decide)⟩

/-- C9: in a well-formed tree, with `lvl` the method `Level`, for every node id other than the
root and every level with `0 < level < lvl id`, `GetAncestorNode id level` returns, after
`lvl id - level` iterations of its loop, a node `a` that lies on the parent chain of `id`
above `id` and whose level is `level`, and `a` is the only node of the chain with that level. -/
theorem GetAncestorNode_walk (lvl : Int → Int) (t : SafeMultiBranchTree) (hwf : WellFormed t)
    (hlvl : IsLevelFn lvl t) (id : Int) (n : Node) (hn : GetNode t id = some n)
    (hid : id ≠ t.RootId) (level : Int) (h0 : 0 < level) (h1 : level < lvl id) :
    ∃ a, (∀ fuel, (lvl id - level).toNat ≤ fuel →
            GetAncestorNode lvl fuel t id level = some (some a)) ∧
      (∃ j, 1 ≤ j ∧ nthAncestor t j id = some a) ∧
      lvl a.Id = level ∧
      ∀ j b, nthAncestor t j id = some b → lvl b.Id = level → b = a := by
  obtain ⟨k, hk⟩ := hwf.chains id n hn hid
  have hlk : lvl id = (k : Int) := hlvl id k hk
  obtain ⟨L, rfl⟩ : ∃ L : Nat, level = (L : Int) := ⟨level.toNat, by omega⟩
  obtain ⟨k, rfl⟩ : ∃ k0, k = k0 + 1 := ⟨k - 1, by omega⟩
  obtain ⟨-, n0, hn0, hk'⟩ := (HasLevel_succ_iff t id k).mp hk
  rw [hn] at hn0
  cases hn0
  obtain ⟨asc, hasc⟩ := HasLevel_resolves t n.Pid k hk'
  have haid : asc.Id = n.Pid := hwf.keys n.Pid asc hasc
  obtain ⟨m, rfl⟩ : ∃ m, k = L + m := ⟨k - L, by omega⟩
  have hasc' : GetNode t asc.Id = some asc := by rw [haid]; exact hasc
  have hkasc : HasLevel t asc.Id (L + m) := by rw [haid]; exact hk'
  obtain ⟨a, ha, hloop⟩ := ancestorLoop_returns lvl t hwf.keys hlvl L m asc hasc' hkasc
  have hchain : nthAncestor t (m + 1) id = some a := by
    rw [nthAncestor, if_neg hid, hn]
    simp only []
    rw [← haid]
    exact ha
  have halv := (nthAncestor_level t hwf.keys (m + 1) id (L + m + 1) a hk hchain).2
  have hL : L + m + 1 - (m + 1) = L := by omega
  rw [hL] at halv
  refine ⟨a, ?_, ⟨m + 1, by omega, hchain⟩, hlvl a.Id L halv, ?_⟩
  · intro fuel hf
    unfold GetAncestorNode
    rw [if_neg hid, hn]
    simp only [hasc]
    have hne0 : ¬ ((L : Int) = 0) := by omega
    have hlt : ¬ ((L : Int) ≥ lvl id) := by omega
    rw [if_neg hne0, if_neg hlt, hlvl asc.Id (L + m) hkasc]
    exact hloop fuel (by omega)
  · intro j b hb hbl
    obtain ⟨hjle, hblv⟩ := nthAncestor_level t hwf.keys j id (L + m + 1) b hk hb
    have hbl' := hlvl b.Id _ hblv
    have hj : j = m + 1 := by omega
    subst hj
    rw [hchain] at hb
    exact (Option.some.inj hb).symm

/-- C9, instance: in the chain 1 -> 2 -> 3 -> 4 -> 5, node 5 lies at level 4 and its ancestor at
level 2 is node 3, which the loop returns in its second iteration. -/
theorem GetAncestorNode_walk_witness :
    WellFormed chainTree ∧ IsLevelFn (Level chainTree) chainTree ∧
    GetNode chainTree 5 = some chain5 ∧ (5 : Int) ≠ chainTree.RootId ∧
    (0 : Int) < 2 ∧ 2 < Level chainTree 5 ∧
    GetAncestorNode (Level chainTree) 2 chainTree 5 2 = some (some chain3) ∧
    GetAncestorNode (Level chainTree) 1 chainTree 5 2 = none ∧
    ∃ a, (∀ fuel, (Level chainTree 5 - 2).toNat ≤ fuel →
            GetAncestorNode (Level chainTree) fuel chainTree 5 2 = some (some a)) ∧
      (∃ j, 1 ≤ j ∧ nthAncestor chainTree j 5 = some a) ∧
      Level chainTree a.Id = 2 ∧
      ∀ j b, nthAncestor chainTree j 5 = some b → Level chainTree b.Id = 2 → b = a :=
  ⟨chainTree_wellFormed, Level_isLevelFn chainTree, by decide, by decide, by decide, by decide,
    by decide, by decide,
    GetAncestorNode_walk (Level chainTree) chainTree chainTree_wellFormed
      (Level_isLevelFn chainTree) 5 chain5 (by decide) (by decide) 2 (by decide) (by decide)⟩

/-- C10: in a well-formed tree, with `lvl` the method `Level`, for every node id other than the
root the parent `p` resolves and lies at level `lvl id - 1`, and the walk at that level and the
shortcut at level 0 both return `p`. On the tree 1 -> {2, 3}, 2 -> {4}, `GetAncestorNode 4 1`
and `GetAncestorNode 4 0` are both node 2. -/
theorem GetAncestorNode_parent_level (lvl : Int → Int) (t : SafeMultiBranchTree)
    (hwf : WellFormed t) (hlvl : IsLevelFn lvl t) (id : Int) (n : Node)
    (hn : GetNode t id = some n) (hid : id ≠ t.RootId) :
    (∃ p, GetParentNode t id = some p ∧ lvl p.Id = lvl id - 1 ∧
      ∀ fuel, 1 ≤ fuel →
        GetAncestorNode lvl fuel t id (lvl id - 1) = some (some p) ∧
        GetAncestorNode lvl fuel t id 0 = some (some p)) ∧
    GetAncestorNode (Level specTree) 1 specTree 4 1 = some (some node2) ∧
    GetAncestorNode (Level specTree) 1 specTree 4 0 = some (some node2) := by
  refine ⟨?_, by decide, by decide⟩
  obtain ⟨k, hk⟩ := hwf.chains id n hn hid
  have hlk : lvl id = (k : Int) := hlvl id k hk
  obtain ⟨k, rfl⟩ : ∃ k0, k = k0 + 1 := by
    cases k with
    | zero => exact absurd ((HasLevel_zero_iff t id).mp hk).1 hid
    | succ k0 => exact ⟨k0, rfl⟩
  obtain ⟨-, n0, hn0, hk'⟩ := (HasLevel_succ_iff t id k).mp hk
  rw [hn] at hn0
  cases hn0
  obtain ⟨p, hp⟩ := HasLevel_resolves t n.Pid k hk'
  have hpid : p.Id = n.Pid := hwf.keys n.Pid p hp
  have hplv : lvl p.Id = (k : Int) := by rw [hpid]; exact hlvl n.Pid k hk'
  have hpar : GetParentNode t id = some p := by
    rw [GetParentNode_of_GetNode t id n hn]; exact hp
  refine ⟨p, hpar, by rw [hplv, hlk]; omega, ?_⟩
  intro fuel hf
  have hzero : GetAncestorNode lvl fuel t id 0 = some (some p) := by
    unfold GetAncestorNode
    rw [if_neg hid, hn]
    simp only [hp, if_true]
  refine ⟨?_, hzero⟩
  have hL : lvl id - 1 = (k : Int) := by omega
  rw [hL]
  cases k with
  | zero => exact hzero
  | succ k =>
    obtain ⟨fuel, rfl⟩ : ∃ g, fuel = g + 1 := ⟨fuel - 1, by omega⟩
    unfold GetAncestorNode
    rw [if_neg hid, hn]
    simp only [hp]
    have hne0 : ¬ (((k + 1 : Nat) : Int) = 0) := by omega
    have hlt : ¬ (((k + 1 : Nat) : Int) ≥ lvl id) := by omega
    rw [if_neg hne0, if_neg hlt, hplv, ancestorLoop, if_pos rfl]

/-- C10, instance: node 4 of the tree 1 -> {2, 3}, 2 -> {4}, whose parent node 2 is at
level 1. -/
theorem GetAncestorNode_parent_level_witness :
    WellFormed specTree ∧ IsLevelFn (Level specTree) specTree ∧
    GetNode specTree 4 = some node4 ∧ (4 : Int) ≠ specTree.RootId ∧
    ∃ p, GetParentNode specTree 4 = some p ∧
      Level specTree p.Id = Level specTree 4 - 1 ∧
      ∀ fuel, 1 ≤ fuel →
        GetAncestorNode (Level specTree) fuel specTree 4 (Level specTree 4 - 1) =
          some (some p) ∧
        GetAncestorNode (Level specTree) fuel specTree 4 0 = some (some p) :=
  ⟨specTree_wellFormed, Level_isLevelFn specTree, by decide, by decide,
    (GetAncestorNode_parent_level (Level specTree) specTree specTree_wellFormed
      (Level_isLevelFn specTree) 4 node4 (by decide) (by decide)).1⟩

/-! ## Lemmas on the enumeration of the store -/

theorem mem_Range_iff (l : List (Int × StoreValue)) (k : Int) (v : StoreValue) :
    (k, v) ∈ Range l ↔ Load l k = some v := by
  induction l with
  | nil => simp [Range, Load]
  | cons e rest ih =>
    obtain ⟨k0, v0⟩ := e
    rw [Range, Load, List.mem_cons, List.mem_filter, ih]
    by_cases hk : k0 = k
    · subst hk
      simp only [Prod.mk.injEq, true_and, ne_eq, not_true_eq_false, decide_False,
        Bool.false_eq_true, and_false, or_false, if_true, Option.some.injEq]
      exact eq_comm
    · have hk' : ¬ k = k0 := fun h => hk h.symm
      simp [hk, hk']

theorem foldl_allVisit (l : List (Int × StoreValue)) :
    ∀ acc : List (Option Node), l.foldl allVisit acc = acc ++ l.foldl allVisit [] := by
  induction l with
  | nil => intro acc; simp
  | cons e rest ih =>
    intro acc
    rw [List.foldl_cons, List.foldl_cons, ih (allVisit acc e), ih (allVisit [] e)]
    obtain ⟨k, v⟩ := e
    cases v <;> simp [allVisit]

theorem mem_foldl_allVisit (l : List (Int × StoreValue)) (o : Option Node) :
    o ∈ l.foldl allVisit [] ↔
      ∃ k, (∃ n, o = some n ∧ (k, StoreValue.node n) ∈ l) ∨
        (o = none ∧ (k, StoreValue.nilNode) ∈ l) := by
  induction l with
  | nil => simp
  | cons e rest ih =>
    rw [List.foldl_cons, foldl_allVisit, List.mem_append, ih]
    obtain ⟨k0, v0⟩ := e
    constructor
    · rintro (h | ⟨k, h⟩)
      · cases v0 with
        | node m =>
          simp only [allVisit, List.nil_append, List.mem_singleton] at h
          exact ⟨k0, Or.inl ⟨m, h, List.mem_cons_self _ _⟩⟩
        | nilNode =>
          simp only [allVisit, List.nil_append, List.mem_singleton] at h
          exact ⟨k0, Or.inr ⟨h, List.mem_cons_self _ _⟩⟩
        | other => simp [allVisit] at h
      · rcases h with ⟨n, ho, hm⟩ | ⟨ho, hm⟩
        · exact ⟨k, Or.inl ⟨n, ho, List.mem_cons_of_mem _ hm⟩⟩
        · exact ⟨k, Or.inr ⟨ho, List.mem_cons_of_mem _ hm⟩⟩
    · rintro ⟨k, ⟨n, ho, hm⟩ | ⟨ho, hm⟩⟩
      · rcases List.mem_cons.mp hm with heq | hm
        · cases heq
          left
          simp [allVisit, ho]
        · exact Or.inr ⟨k, Or.inl ⟨n, ho, hm⟩⟩
      · rcases List.mem_cons.mp hm with heq | hm
        · cases heq
          left
          simp [allVisit, ho]
        · exact Or.inr ⟨k, Or.inr ⟨ho, hm⟩⟩

/-- The nodes returned by `GetAllNodes` are the nodes that some key resolves to. -/
theorem some_mem_GetAllNodes_iff (t : SafeMultiBranchTree) (n : Node) :
    some n ∈ GetAllNodes t ↔ ∃ k, GetNode t k = some n := by
  unfold GetAllNodes
  rw [mem_foldl_allVisit]
  constructor
  · rintro ⟨k, ⟨m, hm, hmem⟩ | ⟨h, -⟩⟩
    · cases hm
      exact ⟨k, (GetNode_eq_some_iff t k n).mpr ((mem_Range_iff _ _ _).mp hmem)⟩
    · cases h
  · rintro ⟨k, hk⟩
    exact ⟨k, Or.inl ⟨n, rfl, (mem_Range_iff _ _ _).mpr ((GetNode_eq_some_iff t k n).mp hk)⟩⟩

/-- The result of `GetAllNodes` holds a nil pointer iff some key holds a nil `*Node`. -/
theorem none_mem_GetAllNodes_iff (t : SafeMultiBranchTree) :
    none ∈ GetAllNodes t ↔ ∃ k, Load t.Nodes k = some StoreValue.nilNode := by
  unfold GetAllNodes
  rw [mem_foldl_allVisit]
  constructor
  · rintro ⟨k, ⟨m, hm, -⟩ | ⟨-, hmem⟩⟩
    · cases hm
    · exact ⟨k, (mem_Range_iff _ _ _).mp hmem⟩
  · rintro ⟨k, hk⟩
    exact ⟨k, Or.inr ⟨rfl, (mem_Range_iff _ _ _).mpr hk⟩⟩

theorem foldl_leafStep (t : SafeMultiBranchTree) (l : List Int) :
    ∀ acc : List (Option Node), l.foldl (leafStep t) acc =
      acc ++ (l.filterMap fun nid => (GetNode t nid).filter fun n => n.IsLeaf).map some := by
  induction l with
  | nil => intro acc; simp
  | cons c rest ih =>
    intro acc
    rw [List.foldl_cons, ih]
    unfold leafStep
    cases h : GetNode t c with
    | none => simp [List.filterMap_cons, h]
    | some n =>
      by_cases hl : n.IsLeaf = true
      · simp [List.filterMap_cons, h, Option.filter, hl]
      · simp [List.filterMap_cons, h, Option.filter, hl]

/-! ## Lemmas on the traversal -/

/-- The traversal only adds ids to the ids yielded so far. -/
theorem dftLoop_out_mem (t : SafeMultiBranchTree) (fuel : Nat) :
    ∀ (stack out : List Int) (x : Int), x ∈ out → x ∈ dftLoop t fuel stack out := by
  induction fuel with
  | zero => intro stack out x hx; rw [dftLoop]; exact hx
  | succ fuel ih =>
    intro stack out x hx
    cases stack with
    | nil => rw [dftLoop]; exact hx
    | cons id stack =>
      rw [dftLoop]
      split_ifs with hmem
      · exact ih stack out x hx
      · cases hn : GetNode t id with
        | none => exact ih stack out x hx
        | some n => exact ih _ _ x (List.mem_append_left _ hx)

/-- Every id that the traversal yields is reachable by child links from `root`, when the ids on
the stack and the ids yielded so far are. -/
theorem dftLoop_reach (t : SafeMultiBranchTree) (root : Int) (fuel : Nat) :
    ∀ (stack out : List Int),
      (∀ x ∈ stack, Relation.ReflTransGen (ChildLink t) root x) →
      (∀ x ∈ out, Relation.ReflTransGen (ChildLink t) root x) →
      ∀ x ∈ dftLoop t fuel stack out, Relation.ReflTransGen (ChildLink t) root x := by
  induction fuel with
  | zero => intro stack out _ hout x hx; rw [dftLoop] at hx; exact hout x hx
  | succ fuel ih =>
    intro stack out hstack hout x hx
    cases stack with
    | nil => rw [dftLoop] at hx; exact hout x hx
    | cons id stack =>
      have hstack' : ∀ y ∈ stack, Relation.ReflTransGen (ChildLink t) root y :=
        fun y hy => hstack y (List.mem_cons_of_mem _ hy)
      have hid := hstack id (List.mem_cons_self _ _)
      rw [dftLoop] at hx
      split_ifs at hx with hmem
      · exact ih stack out hstack' hout x hx
      · cases hn : GetNode t id with
        | none =>
          rw [hn] at hx
          exact ih stack out hstack' hout x hx
        | some n =>
          rw [hn] at hx
          refine ih _ _ ?_ ?_ x hx
          · intro y hy
            rcases List.mem_append.mp hy with hy | hy
            · exact Relation.ReflTransGen.tail hid ⟨n, hn, hy⟩
            · exact hstack' y hy
          · intro y hy
            rcases List.mem_append.mp hy with hy | hy
            · exact hout y hy
            · rw [List.mem_singleton] at hy
              rw [hy]
              exact hid

/-- The ids yielded by the traversal are pairwise distinct. -/
theorem dftLoop_nodup (t : SafeMultiBranchTree) (fuel : Nat) :
    ∀ (stack out : List Int), out.Nodup → (dftLoop t fuel stack out).Nodup := by
  induction fuel with
  | zero => intro stack out h; rw [dftLoop]; exact h
  | succ fuel ih =>
    intro stack out h
    cases stack with
    | nil => rw [dftLoop]; exact h
    | cons id stack =>
      rw [dftLoop]
      split_ifs with hmem
      · exact ih stack out h
      · cases hn : GetNode t id with
        | none => exact ih stack out h
        | some n =>
          refine ih _ _ ?_
          rw [List.nodup_append]
          refine ⟨h, List.nodup_singleton id, ?_⟩
          intro a ha hb
          rw [List.mem_singleton] at hb
          exact hmem (hb ▸ ha)

theorem dftLoop_nil (t : SafeMultiBranchTree) (fuel : Nat) (out : List Int) :
    dftLoop t fuel [] out = out := by
  cases fuel <;> rw [dftLoop]

/-- The traversal of an id that resolves starts by yielding that id and goes on with its child
ids. -/
theorem DepthFirstTraversal_of_GetNode (t : SafeMultiBranchTree) (id : Int) (n : Node)
    (hn : GetNode t id = some n) :
    DepthFirstTraversal t id =
      dftLoop t (t.Nodes.map fun e => childCount e.2).sum n.ChildIds [id] := by
  unfold DepthFirstTraversal traversalFuel
  rw [Nat.add_comm, dftLoop]
  simp [hn]

theorem mem_DepthFirstTraversal_self (t : SafeMultiBranchTree) (id : Int) (n : Node)
    (hn : GetNode t id = some n) : id ∈ DepthFirstTraversal t id := by
  rw [DepthFirstTraversal_of_GetNode t id n hn]
  exact dftLoop_out_mem t _ _ _ id (List.mem_singleton.mpr rfl)

/-- Every id that the traversal of `id` yields is `id` or is reachable from it by child
links. -/
theorem DepthFirstTraversal_reach (t : SafeMultiBranchTree) (id x : Int)
    (hx : x ∈ DepthFirstTraversal t id) : Relation.ReflTransGen (ChildLink t) id x := by
  refine dftLoop_reach t id _ [id] [] ?_ ?_ x hx
  · intro y hy
    rw [List.mem_singleton] at hy
    rw [hy]
  · intro y hy
    cases hy

theorem pendingChildren_nil (l : List (Int × StoreValue)) :
    pendingChildren l [] = (l.map fun e => childCount e.2).sum := by
  unfold pendingChildren
  simp

theorem pendingChildren_mono (l : List (Int × StoreValue)) (out : List Int) (id : Int) :
    pendingChildren l (out ++ [id]) ≤ pendingChildren l out := by
  induction l with
  | nil => simp [pendingChildren]
  | cons e rest ih =>
    unfold pendingChildren at ih ⊢
    rw [List.filter_cons, List.filter_cons]
    by_cases h1 : e.1 ∈ out
    · have h2 : e.1 ∈ out ++ [id] := List.mem_append_left _ h1
      simpa [h1, h2] using ih
    · by_cases h2 : e.1 ∈ out ++ [id]
      · simp only [h1, h2, not_true_eq_false, not_false_eq_true, decide_True, decide_False,
          Bool.false_eq_true, if_true, if_false, List.map_cons, List.sum_cons]
        omega
      · simp only [h1, h2, not_false_eq_true, decide_True, if_true, List.map_cons,
          List.sum_cons]
        omega

/-- Yielding an id that resolves to `n` takes the child ids of `n` off the pending ones. -/
theorem pendingChildren_step (l : List (Int × StoreValue)) (out : List Int) (id : Int)
    (n : Node) (hout : id ∉ out) (hmem : (id, StoreValue.node n) ∈ l) :
    pendingChildren l (out ++ [id]) + n.ChildIds.length ≤ pendingChildren l out := by
  induction l with
  | nil => cases hmem
  | cons e rest ih =>
    have hmono := pendingChildren_mono rest out id
    unfold pendingChildren at ih hmono ⊢
    rw [List.filter_cons, List.filter_cons]
    rcases List.mem_cons.mp hmem with heq | hrest
    · subst heq
      have h2 : id ∈ out ++ [id] := List.mem_append_right _ (List.mem_singleton.mpr rfl)
      have hcc : childCount (StoreValue.node n) = n.ChildIds.length := rfl
      simp only [hout, h2, not_true_eq_false, not_false_eq_true, decide_True, decide_False,
        Bool.false_eq_true, if_true, if_false, List.map_cons, List.sum_cons, hcc]
      omega
    · have ih' := ih hrest
      by_cases h1 : e.1 ∈ out
      · have h2 : e.1 ∈ out ++ [id] := List.mem_append_left _ h1
        simpa [h1, h2] using ih'
      · by_cases h2 : e.1 ∈ out ++ [id]
        · simp only [h1, h2, not_true_eq_false, not_false_eq_true, decide_True, decide_False,
            Bool.false_eq_true, if_true, if_false, List.map_cons, List.sum_cons]
          omega
        · simp only [h1, h2, not_false_eq_true, decide_True, if_true, List.map_cons,
            List.sum_cons]
          omega

/-- Every id that the traversal yields resolves, when the ids yielded so far do. -/
theorem dftLoop_resolves (t : SafeMultiBranchTree) (fuel : Nat) :
    ∀ (stack out : List Int), (∀ x ∈ out, ∃ n, GetNode t x = some n) →
      ∀ x ∈ dftLoop t fuel stack out, ∃ n, GetNode t x = some n := by
  induction fuel with
  | zero => intro stack out hout x hx; rw [dftLoop] at hx; exact hout x hx
  | succ fuel ih =>
    intro stack out hout x hx
    cases stack with
    | nil => rw [dftLoop] at hx; exact hout x hx
    | cons id stack =>
      rw [dftLoop] at hx
      split_ifs at hx with hmem
      · exact ih stack out hout x hx
      · cases hn : GetNode t id with
        | none =>
          rw [hn] at hx
          exact ih stack out hout x hx
        | some n =>
          rw [hn] at hx
          refine ih _ _ ?_ x hx
          intro y hy
          rcases List.mem_append.mp hy with hy | hy
          · exact hout y hy
          · rw [List.mem_singleton] at hy
            exact ⟨n, hy ▸ hn⟩

/-- With enough fuel the traversal stops on an empty stack, and its result is closed under
child links: every child id that resolves, of every yielded id, is yielded too. -/
theorem dftLoop_closed (t : SafeMultiBranchTree) (fuel : Nat) :
    ∀ (stack out : List Int),
      stack.length + pendingChildren t.Nodes out ≤ fuel →
      (∀ x ∈ out, ∀ n, GetNode t x = some n → ∀ c ∈ n.ChildIds,
        (∃ m, GetNode t c = some m) → c ∈ out ∨ c ∈ stack) →
      ∀ x ∈ dftLoop t fuel stack out, ∀ n, GetNode t x = some n → ∀ c ∈ n.ChildIds,
        (∃ m, GetNode t c = some m) → c ∈ dftLoop t fuel stack out := by
  induction fuel with
  | zero =>
    intro stack out hfuel hinv x hx n hn c hc hres
    have hnil : stack = [] := List.length_eq_zero.mp (by omega)
    subst hnil
    rw [dftLoop] at hx ⊢
    rcases hinv x hx n hn c hc hres with h | h
    · exact h
    · cases h
  | succ fuel ih =>
    intro stack out hfuel hinv
    cases stack with
    | nil =>
      intro x hx n hn c hc hres
      rw [dftLoop] at hx ⊢
      rcases hinv x hx n hn c hc hres with h | h
      · exact h
      · cases h
    | cons id stack =>
      rw [List.length_cons] at hfuel
      rw [dftLoop]
      split_ifs with hmem
      · refine ih stack out (by omega) ?_
        intro x hx n hn c hc hres
        rcases hinv x hx n hn c hc hres with h | h
        · exact Or.inl h
        · rcases List.mem_cons.mp h with h | h
          · exact Or.inl (h ▸ hmem)
          · exact Or.inr h
      · cases hid : GetNode t id with
        | none =>
          refine ih stack out (by omega) ?_
          intro x hx n hn c hc hres
          rcases hinv x hx n hn c hc hres with h | h
          · exact Or.inl h
          · rcases List.mem_cons.mp h with h | h
            · obtain ⟨m, hm⟩ := hres
              rw [h, hid] at hm
              cases hm
            · exact Or.inr h
        | some nid =>
          have hstep := pendingChildren_step t.Nodes out id nid hmem (GetNode_mem t id nid hid)
          refine ih _ _ (by rw [List.length_append]; omega) ?_
          intro x hx n hn c hc hres
          rcases List.mem_append.mp hx with hx | hx
          · rcases hinv x hx n hn c hc hres with h | h
            · exact Or.inl (List.mem_append_left _ h)
            · rcases List.mem_cons.mp h with h | h
              · exact Or.inl (List.mem_append_right _ (List.mem_singleton.mpr h))
              · exact Or.inr (List.mem_append_right _ h)
          · rw [List.mem_singleton] at hx
            subst hx
            rw [hid] at hn
            cases hn
            exact Or.inr (List.mem_append_left _ hc)

/-- The traversal of the spec yields exactly the ids that resolve and that are `id` itself or
reachable from `id` by child links, each of them once. -/
theorem mem_DepthFirstTraversal_iff (t : SafeMultiBranchTree) (id x : Int) :
    (x ∈ DepthFirstTraversal t id ↔
      Relation.ReflTransGen (ChildLink t) id x ∧ ∃ n, GetNode t x = some n) ∧
    (DepthFirstTraversal t id).Nodup := by
  refine ⟨⟨fun hx => ⟨DepthFirstTraversal_reach t id x hx, ?_⟩, ?_⟩, ?_⟩
  · exact dftLoop_resolves t _ [id] [] (fun y hy => by cases hy) x hx
  · rintro ⟨hreach, hres⟩
    have hclosed : ∀ y ∈ DepthFirstTraversal t id, ∀ n, GetNode t y = some n →
        ∀ c ∈ n.ChildIds, (∃ m, GetNode t c = some m) → c ∈ DepthFirstTraversal t id := by
      refine dftLoop_closed t _ [id] [] ?_ ?_
      · rw [pendingChildren_nil]
        unfold traversalFuel
        simp
      · intro y hy
        cases hy
    induction hreach with
    | refl =>
      obtain ⟨n, hn⟩ := hres
      exact mem_DepthFirstTraversal_self t id n hn
    | tail _ hlink ih =>
      obtain ⟨n, hn, hc⟩ := hlink
      exact hclosed _ (ih ⟨n, hn⟩) n hn _ hc hres
  · exact dftLoop_nodup t _ [id] [] List.nodup_nil

/-! ## Lemmas on the subtree -/

theorem Load_filterMap_copyEntry (t : SafeMultiBranchTree) (k : Int) (l : List Int) :
    Load (l.filterMap (copyEntry t)) k =
      if k ∈ l then (GetNode t k).map StoreValue.node else none := by
  induction l with
  | nil => simp [Load]
  | cons c rest ih =>
    rw [List.filterMap_cons]
    cases hc : GetNode t c with
    | none =>
      have hce : copyEntry t c = none := by unfold copyEntry; rw [hc]
      rw [hce]
      simp only []
      rw [ih]
      by_cases hk : k = c
      · subst hk
        simp [hc]
      · simp [hk]
    | some n =>
      have hce : copyEntry t c = some (c, StoreValue.node n) := by unfold copyEntry; rw [hc]
      rw [hce]
      simp only []
      rw [Load, ih]
      by_cases hk : k = c
      · subst hk
        simp [hc]
      · have hk' : ¬ c = k := fun h => hk h.symm
        simp [hk, hk']

/-- The subtree resolves exactly the traversed ids, to the nodes they resolve to in the tree. -/
theorem GetNode_SubTree (t s : SafeMultiBranchTree) (id k : Int) (hs : SubTree t id = some s) :
    GetNode s k = if k ∈ DepthFirstTraversal t id then GetNode t k else none := by
  unfold SubTree at hs
  cases hn : GetNode t id with
  | none => rw [hn] at hs; cases hs
  | some n =>
    rw [hn] at hs
    cases hs
    apply Option.ext
    intro m
    rw [Option.mem_def, Option.mem_def, GetNode_eq_some_iff]
    simp only []
    rw [Load_filterMap_copyEntry]
    split_ifs with hk
    · cases hg : GetNode t k <;> simp
    · simp

theorem SubTree_no_nil (t s : SafeMultiBranchTree) (id k : Int) (hs : SubTree t id = some s) :
    Load s.Nodes k ≠ some StoreValue.nilNode := by
  unfold SubTree at hs
  cases hn : GetNode t id with
  | none => rw [hn] at hs; cases hs
  | some n =>
    rw [hn] at hs
    cases hs
    simp only []
    rw [Load_filterMap_copyEntry]
    split_ifs with hk
    · cases GetNode t k <;> simp
    · simp

theorem foldl_descendantVisit (f : FilterFunc) (l : List (Int × StoreValue)) :
    ∀ acc : List (Option Node),
      l.foldl (descendantVisit f) acc = acc ++ l.foldl (descendantVisit f) [] := by
  induction l with
  | nil => intro acc; simp
  | cons e rest ih =>
    intro acc
    rw [List.foldl_cons, List.foldl_cons, ih (descendantVisit f acc e),
      ih (descendantVisit f [] e)]
    obtain ⟨k, v⟩ := e
    cases v with
    | node m => by_cases hf : f (some m) = true <;> simp [descendantVisit, hf]
    | nilNode => by_cases hf : f none = true <;> simp [descendantVisit, hf]
    | other => simp [descendantVisit]

theorem mem_foldl_descendantVisit (f : FilterFunc) (l : List (Int × StoreValue))
    (o : Option Node) :
    o ∈ l.foldl (descendantVisit f) [] ↔
      f o = true ∧ ∃ k, (∃ n, o = some n ∧ (k, StoreValue.node n) ∈ l) ∨
        (o = none ∧ (k, StoreValue.nilNode) ∈ l) := by
  induction l with
  | nil => simp
  | cons e rest ih =>
    rw [List.foldl_cons, foldl_descendantVisit, List.mem_append, ih]
    obtain ⟨k0, v0⟩ := e
    constructor
    · rintro (h | ⟨hf, k, h⟩)
      · cases v0 with
        | node m =>
          by_cases hf : f (some m) = true
          · simp only [descendantVisit, hf, if_true, List.nil_append, List.mem_singleton] at h
            exact ⟨h ▸ hf, k0, Or.inl ⟨m, h, List.mem_cons_self _ _⟩⟩
          · simp [descendantVisit, hf] at h
        | nilNode =>
          by_cases hf : f none = true
          · simp only [descendantVisit, hf, if_true, List.nil_append, List.mem_singleton] at h
            exact ⟨h ▸ hf, k0, Or.inr ⟨h, List.mem_cons_self _ _⟩⟩
          · simp [descendantVisit, hf] at h
        | other => simp [descendantVisit] at h
      · refine ⟨hf, k, ?_⟩
        rcases h with ⟨n, ho, hm⟩ | ⟨ho, hm⟩
        · exact Or.inl ⟨n, ho, List.mem_cons_of_mem _ hm⟩
        · exact Or.inr ⟨ho, List.mem_cons_of_mem _ hm⟩
    · rintro ⟨hf, k, ⟨n, ho, hm⟩ | ⟨ho, hm⟩⟩
      · rcases List.mem_cons.mp hm with heq | hm
        · cases heq
          left
          rw [ho] at hf
          simp [descendantVisit, ho, hf]
        · exact Or.inr ⟨hf, k, Or.inl ⟨n, ho, hm⟩⟩
      · rcases List.mem_cons.mp hm with heq | hm
        · cases heq
          left
          rw [ho] at hf
          simp [descendantVisit, ho, hf]
        · exact Or.inr ⟨hf, k, Or.inr ⟨ho, hm⟩⟩

/-! ## Lemmas on the removal of an entry and on sibling lists -/

theorem Load_Delete (l : List (Int × StoreValue)) (c x : Int) :
    Load (Delete l c) x = if x = c then none else Load l x := by
  induction l with
  | nil => simp [Delete, Load]
  | cons e rest ih =>
    obtain ⟨k, v⟩ := e
    unfold Delete at ih ⊢
    rw [List.filter_cons]
    by_cases hk : k = c
    · subst hk
      simp only [ne_eq, not_true_eq_false, decide_False, Bool.false_eq_true, if_false]
      rw [ih, Load]
      by_cases hx : x = k
      · simp [hx]
      · have hx' : ¬ k = x := fun h => hx h.symm
        simp [hx, hx']
    · simp only [ne_eq, hk, not_false_eq_true, decide_True, if_true]
      rw [Load, Load, ih]
      by_cases hx : x = c
      · have hkx : ¬ k = x := fun h => hk (h.trans hx)
        simp [hx, hkx, hk]
      · simp [hx]

/-- After the removal of the entry for `c`, the id `c` does not resolve and every other id
resolves as before. -/
theorem GetNode_deleteNode (t : SafeMultiBranchTree) (c x : Int) :
    GetNode (deleteNode t c) x = if x = c then none else GetNode t x := by
  unfold GetNode deleteNode
  simp only []
  rw [Load_Delete]
  split_ifs with hx
  · rfl
  · rfl

theorem filterMap_GetNode_deleteNode (t : SafeMultiBranchTree) (c : Int) (l : List Int) :
    l.filterMap (GetNode (deleteNode t c)) =
      (l.filter fun x => decide (x ≠ c)).filterMap (GetNode t) := by
  induction l with
  | nil => simp
  | cons x rest ih =>
    rw [List.filterMap_cons, List.filter_cons, GetNode_deleteNode, ih]
    by_cases hx : x = c
    · simp [hx]
    · simp [hx, List.filterMap_cons]

/-- When the keys of the store are the ids of the nodes, dropping the child ids equal to `c`
before resolving is the same as dropping the nodes whose id is `c` after resolving. -/
theorem filter_filterMap_GetNode (t : SafeMultiBranchTree) (hkeys : KeysAreIds t) (c : Int)
    (l : List Int) :
    (l.filterMap (GetNode t)).filter (fun n => decide (n.Id ≠ c)) =
      (l.filter fun x => decide (x ≠ c)).filterMap (GetNode t) := by
  induction l with
  | nil => simp
  | cons x rest ih =>
    rw [List.filterMap_cons, List.filter_cons]
    cases hx : GetNode t x with
    | none =>
      simp only []
      rw [ih]
      by_cases hc : x = c
      · simp [hc]
      · simp [hc, List.filterMap_cons, hx]
    | some n =>
      have hid : n.Id = x := hkeys x n hx
      simp only []
      rw [List.filter_cons, ih, hid]
      by_cases hc : x = c
      · simp [hc]
      · simp [hc, List.filterMap_cons, hx]

/-! ## Lemmas on the termination of the loop of `GetAncestorNode` -/

/-- Started at a stored node at level `j`, the loop returns within `j + 1` iterations, whatever
the target level. -/
theorem ancestorLoop_terminates (lvl : Int → Int) (t : SafeMultiBranchTree)
    (hkeys : KeysAreIds t) (hlvl : IsLevelFn lvl t) (level : Int) (j : Nat) :
    ∀ a : Node, GetNode t a.Id = some a → HasLevel t a.Id j →
      ∃ r, ∀ fuel, j + 1 ≤ fuel →
        ancestorLoop lvl t level fuel a ((j : Nat) : Int) = some r := by
  induction j with
  | zero =>
    intro a _ _
    by_cases h0 : ((0 : Nat) : Int) = level
    · refine ⟨some a, fun fuel hf => ?_⟩
      obtain ⟨fuel, rfl⟩ : ∃ g, fuel = g + 1 := ⟨fuel - 1, by omega⟩
      rw [ancestorLoop, if_pos h0]
    · refine ⟨none, fun fuel hf => ?_⟩
      obtain ⟨fuel, rfl⟩ : ∃ g, fuel = g + 1 := ⟨fuel - 1, by omega⟩
      rw [ancestorLoop, if_neg h0, if_pos (by simp)]
  | succ j ih =>
    intro a ha hk
    by_cases h0 : ((j + 1 : Nat) : Int) = level
    · refine ⟨some a, fun fuel hf => ?_⟩
      obtain ⟨fuel, rfl⟩ : ∃ g, fuel = g + 1 := ⟨fuel - 1, by omega⟩
      rw [ancestorLoop, if_pos h0]
    · obtain ⟨-, n, hn, hk'⟩ := (HasLevel_succ_iff t a.Id j).mp hk
      rw [ha] at hn
      cases hn
      obtain ⟨next, hnext⟩ := HasLevel_resolves t a.Pid j hk'
      have hid : next.Id = a.Pid := hkeys a.Pid next hnext
      have hnext' : GetNode t next.Id = some next := by rw [hid]; exact hnext
      have hk'' : HasLevel t next.Id j := by rw [hid]; exact hk'
      obtain ⟨r, hr⟩ := ih next hnext' hk''
      refine ⟨r, fun fuel hf => ?_⟩
      obtain ⟨fuel, rfl⟩ : ∃ g, fuel = g + 1 := ⟨fuel - 1, by omega⟩
      have h2 : ¬ (((j + 1 : Nat) : Int) = 0) := by omega
      rw [ancestorLoop, if_neg h0, if_neg h2, hnext]
      simp only []
      rw [hlvl next.Id j hk'']
      exact hr fuel (by omega)

/-! ## Lemmas on the scan for leaves -/

theorem Range_keys_nodup (l : List (Int × StoreValue)) : ((Range l).map Prod.fst).Nodup := by
  induction l with
  | nil => simp [Range]
  | cons e rest ih =>
    obtain ⟨k, v⟩ := e
    rw [Range, List.map_cons, List.nodup_cons]
    constructor
    · intro hmem
      obtain ⟨e, he, hk⟩ := List.mem_map.mp hmem
      have := (List.mem_filter.mp he).2
      simp only [ne_eq, decide_eq_true_eq] at this
      exact this hk
    · exact ih.sublist ((List.filter_sublist _).map Prod.fst)

theorem leafKeys_nodup (t : SafeMultiBranchTree) : (leafKeys t).Nodup :=
  (Range_keys_nodup t.Nodes).sublist ((List.filter_sublist _).map Prod.fst)

theorem mem_leafKeys_iff (t : SafeMultiBranchTree) (k : Int) :
    k ∈ leafKeys t ↔ ∃ n, GetNode t k = some n ∧ n.ChildIds = [] := by
  unfold leafKeys
  rw [List.mem_map]
  constructor
  · rintro ⟨⟨k0, v⟩, he, rfl⟩
    obtain ⟨hmem, hleaf⟩ := List.mem_filter.mp he
    cases v with
    | node n =>
      refine ⟨n, (GetNode_eq_some_iff t k0 n).mpr ((mem_Range_iff _ _ _).mp hmem), ?_⟩
      simpa [isLeafEntry, Node.IsLeaf] using hleaf
    | nilNode => simp [isLeafEntry] at hleaf
    | other => simp [isLeafEntry] at hleaf
  · rintro ⟨n, hn, hleaf⟩
    refine ⟨(k, StoreValue.node n), List.mem_filter.mpr ⟨?_, ?_⟩, rfl⟩
    · exact (mem_Range_iff _ _ _).mpr ((GetNode_eq_some_iff t k n).mp hn)
    · simp [isLeafEntry, Node.IsLeaf, hleaf]

/-- When the visitor of `GetLeafNodes` meets no nil `*Node`, or when `IsLeaf` returns false on
a nil receiver, the scan appends the nodes of the entries that hold a leaf, in order. -/
theorem foldl_leafVisit_eq (nilLeaf : Option Bool) (l : List (Int × StoreValue))
    (hsafe : nilLeaf = some false ∨ ∀ k, (k, StoreValue.nilNode) ∉ l) :
    ∀ acc : List (Option Node), l.foldl (leafVisit nilLeaf) (some acc) =
      some (acc ++ ((l.filter isLeafEntry).filterMap fun e => entryNode e.2).map some) := by
  induction l with
  | nil => intro acc; simp
  | cons e rest ih =>
    have hsafe' : nilLeaf = some false ∨ ∀ k, (k, StoreValue.nilNode) ∉ rest := by
      rcases hsafe with h | h
      · exact Or.inl h
      · exact Or.inr fun k hk => h k (List.mem_cons_of_mem _ hk)
    intro acc
    obtain ⟨k0, v0⟩ := e
    rw [List.foldl_cons, List.filter_cons]
    cases v0 with
    | node m =>
      by_cases hm : m.IsLeaf = true
      · simp only [leafVisit, isLeafEntry, hm, if_true]
        rw [ih hsafe']
        simp [List.filterMap_cons, entryNode]
      · simp only [leafVisit, isLeafEntry, hm, Bool.false_eq_true, if_false]
        rw [ih hsafe']
    | nilNode =>
      rcases hsafe with h | h
      · subst h
        simp only [leafVisit, isLeafEntry]
        rw [ih hsafe']
        simp
      · exact absurd (List.mem_cons_self _ _) (h k0)
    | other =>
      simp only [leafVisit, isLeafEntry]
      rw [ih hsafe']
      simp

/-- The nodes of the entries that hold a leaf are the nodes that the keys of these entries
resolve to. -/
theorem filterMap_entryNode_Range (t : SafeMultiBranchTree) :
    ((Range t.Nodes).filter isLeafEntry).filterMap (fun e => entryNode e.2) =
      (leafKeys t).filterMap (GetNode t) := by
  unfold leafKeys
  rw [List.filterMap_map]
  apply List.filterMap_congr
  rintro ⟨k, v⟩ he
  have hload := (mem_Range_iff _ _ _).mp (List.mem_filter.mp he).1
  simp only [Function.comp, GetNode, hload]
  cases v <;> rfl

/-! ## Theorems on the enumerating getters -/

/-- The scan of `GetLeafNodes` without id on a store whose key 2 holds a nil `*Node`, for the
three outcomes that a call of `IsLeaf` on a nil receiver can have: a nil dereference, true, and
false. -/
theorem GetLeafNodes_all_nil_outcomes :
    Load malformedTree.Nodes 2 = some StoreValue.nilNode ∧
    GetNode malformedTree 2 = none ∧
    GetLeafNodes none DepthFirstTraversal malformedTree [] = none ∧
    GetLeafNodes (some true) DepthFirstTraversal malformedTree [] =
      some [some loneRoot, none] ∧
    GetLeafNodes (some false) DepthFirstTraversal malformedTree [] = some [some loneRoot] := by
  decide

/-- C11: for every tree, with the `IsLeaf` of the spec, `GetLeafNodes` without id returns the
nodes of a duplicate-free list `ks` of keys, and `ks` holds exactly the keys that resolve to a
node whose child list is empty: every returned pointer is a stored leaf and every stored leaf
is returned once for the key that holds it. On a store without a nil `*Node` the result is
the same for every behaviour of `IsLeaf` on a nil receiver. On the tree 1 -> {2, 3}, 2 -> {4}
the result is node 3 and node 4. -/
theorem GetLeafNodes_all_spec (dft : SafeMultiBranchTree → Int → List Int)
    (t : SafeMultiBranchTree) :
    (∃ ks : List Int, ks.Nodup ∧
      (∀ k, k ∈ ks ↔ ∃ n, GetNode t k = some n ∧ n.ChildIds = []) ∧
      GetLeafNodes nilIsLeaf dft t [] = some ((ks.filterMap (GetNode t)).map some) ∧
      ∀ o, o ∈ (ks.filterMap (GetNode t)).map some ↔
        ∃ n, o = some n ∧ (∃ k, GetNode t k = some n) ∧ n.ChildIds = []) ∧
    (∀ nilLeaf, (∀ k, Load t.Nodes k ≠ some StoreValue.nilNode) →
      GetLeafNodes nilLeaf dft t [] = GetLeafNodes nilIsLeaf dft t []) ∧
    GetLeafNodes nilIsLeaf dft specTree [] = some [some node3, some node4] := by
  have hall : ∀ nilLeaf,
      (nilLeaf = some false ∨ ∀ k, Load t.Nodes k ≠ some StoreValue.nilNode) →
      GetLeafNodes nilLeaf dft t [] =
        some (((leafKeys t).filterMap (GetNode t)).map some) := by
    intro nilLeaf hsafe
    simp only [GetLeafNodes, getIdFromArgs, List.head?_nil]
    rw [foldl_leafVisit_eq nilLeaf (Range t.Nodes) ?_ [], List.nil_append,
      filterMap_entryNode_Range]
    rcases hsafe with h | h
    · exact Or.inl h
    · exact Or.inr fun k hk => h k ((mem_Range_iff _ _ _).mp hk)
  refine ⟨⟨leafKeys t, leafKeys_nodup t, mem_leafKeys_iff t, hall nilIsLeaf (Or.inl rfl), ?_⟩,
    fun nilLeaf h => ?_, ?_⟩
  · intro o
    rw [List.mem_map]
    constructor
    · rintro ⟨n, hn, rfl⟩
      obtain ⟨k, hk, hg⟩ := List.mem_filterMap.mp hn
      obtain ⟨m, hm, hleaf⟩ := (mem_leafKeys_iff t k).mp hk
      rw [hm] at hg
      have hmn : m = n := Option.some.inj hg
      subst hmn
      exact ⟨m, rfl, ⟨k, hm⟩, hleaf⟩
    · rintro ⟨n, rfl, ⟨k, hk⟩, hleaf⟩
      exact ⟨n, List.mem_filterMap.mpr ⟨k, (mem_leafKeys_iff t k).mpr ⟨n, hk, hleaf⟩, hk⟩,
        rfl⟩
  · rw [hall nilLeaf (Or.inr h), hall nilIsLeaf (Or.inl rfl)]
  · simp only [GetLeafNodes, getIdFromArgs, List.head?_nil]
    decide

/-- C12: for every tree, every id and every sequence `dft t id` that the traversal yields,
`GetLeafNodes id` is the list got from that sequence by resolving each id with `GetNode` and
keeping, in order, the nodes that resolve and are leaves. With the traversal of the spec, every
returned node is resolved from `id` itself or from an id reachable from `id` by child links. -/
theorem GetLeafNodes_id_spec (nilLeaf : Option Bool)
    (dft : SafeMultiBranchTree → Int → List Int) (t : SafeMultiBranchTree) (id : Int)
    (rest : List Int) :
    GetLeafNodes nilLeaf dft t (id :: rest) =
      some (((dft t id).filterMap fun nid =>
        (GetNode t nid).filter fun n => n.IsLeaf).map some) ∧
    (∀ r o, GetLeafNodes nilLeaf DepthFirstTraversal t (id :: rest) = some r → o ∈ r →
      ∃ n nid, o = some n ∧ GetNode t nid = some n ∧ n.ChildIds = [] ∧
        Relation.ReflTransGen (ChildLink t) id nid) ∧
    GetLeafNodes nilLeaf DepthFirstTraversal specTree [1] = some [some node4, some node3] := by
  have hgen : ∀ d : SafeMultiBranchTree → Int → List Int,
      GetLeafNodes nilLeaf d t (id :: rest) =
        some (((d t id).filterMap fun nid =>
          (GetNode t nid).filter fun n => n.IsLeaf).map some) := by
    intro d
    simp only [GetLeafNodes, getIdFromArgs, List.head?_cons]
    rw [foldl_leafStep, List.nil_append]
  refine ⟨hgen dft, ?_, ?_⟩
  · intro r o hr ho
    rw [hgen DepthFirstTraversal] at hr
    cases hr
    obtain ⟨n, hn, rfl⟩ := List.mem_map.mp ho
    obtain ⟨nid, hnid, hf⟩ := List.mem_filterMap.mp hn
    cases hg : GetNode t nid with
    | none => rw [hg] at hf; simp at hf
    | some m =>
      rw [hg] at hf
      by_cases hl : m.IsLeaf = true
      · simp only [Option.filter, hl, if_true, Option.some.injEq] at hf
        subst hf
        refine ⟨m, nid, rfl, hg, ?_, DepthFirstTraversal_reach t id nid hnid⟩
        simpa [Node.IsLeaf] using hl
      · simp [Option.filter, hl] at hf
  · simp only [GetLeafNodes, getIdFromArgs, List.head?_cons]
    decide

/-- C13: `GetDescendantNodes` is nil exactly when the subtree is nil. With the subtree of the
spec, that is exactly when `id` does not resolve; otherwise the result holds no nil pointer and
a node is in it iff it is a node of the store of the subtree, that is a node resolved from an
id of the traversal of `id`, that the filter accepts; with no filter supplied it holds all of
them. -/
theorem GetDescendantNodes_spec
    (sub : SafeMultiBranchTree → Int → Option SafeMultiBranchTree) (t : SafeMultiBranchTree)
    (id : Int) (args : List FilterFunc) :
    (GetDescendantNodes sub t id args = none ↔ sub t id = none) ∧
    (SubTree t id = none ↔ GetNode t id = none) ∧
    (∀ s, SubTree t id = some s →
      ∃ r, GetDescendantNodes SubTree t id args = some r ∧ none ∉ r ∧
        (∀ n, some n ∈ r ↔
          (∃ k, GetNode s k = some n) ∧ getFilterFromArgs args (some n) = true) ∧
        (∀ n, (∃ k, GetNode s k = some n) ↔
          ∃ nid, nid ∈ DepthFirstTraversal t id ∧ GetNode t nid = some n)) ∧
    (∀ s, SubTree t id = some s →
      ∃ r, GetDescendantNodes SubTree t id [] = some r ∧
        ∀ n, some n ∈ r ↔ ∃ k, GetNode s k = some n) ∧
    GetDescendantNodes SubTree specTree 2 [] = some [some node2, some node4] := by
  have hmain : ∀ (f : List FilterFunc) (s : SafeMultiBranchTree), SubTree t id = some s →
      ∃ r, GetDescendantNodes SubTree t id f = some r ∧ none ∉ r ∧
        ∀ n, some n ∈ r ↔
          (∃ k, GetNode s k = some n) ∧ getFilterFromArgs f (some n) = true := by
    intro f s hs
    refine ⟨_, by unfold GetDescendantNodes; rw [hs], ?_, ?_⟩
    · rw [mem_foldl_descendantVisit]
      rintro ⟨-, k, ⟨n, hn, -⟩ | ⟨-, hmem⟩⟩
      · cases hn
      · exact SubTree_no_nil t s id k hs ((mem_Range_iff _ _ _).mp hmem)
    · intro n
      rw [mem_foldl_descendantVisit]
      constructor
      · rintro ⟨hf, k, ⟨m, hm, hmem⟩ | ⟨h, -⟩⟩
        · cases hm
          exact ⟨⟨k, (GetNode_eq_some_iff s k n).mpr ((mem_Range_iff _ _ _).mp hmem)⟩, hf⟩
        · cases h
      · rintro ⟨⟨k, hk⟩, hf⟩
        exact ⟨hf, k, Or.inl ⟨n, rfl,
          (mem_Range_iff _ _ _).mpr ((GetNode_eq_some_iff s k n).mp hk)⟩⟩
  refine ⟨?_, ?_, ?_, ?_, by decide⟩
  · unfold GetDescendantNodes
    cases sub t id <;> simp
  · unfold SubTree
    cases GetNode t id <;> simp
  · intro s hs
    obtain ⟨r, hr, hnil, hmem⟩ := hmain args s hs
    refine ⟨r, hr, hnil, hmem, fun n => ?_⟩
    constructor
    · rintro ⟨k, hk⟩
      rw [GetNode_SubTree t s id k hs] at hk
      split_ifs at hk with hmemk
      exact ⟨k, hmemk, hk⟩
    · rintro ⟨nid, hnid, hn⟩
      refine ⟨nid, ?_⟩
      rw [GetNode_SubTree t s id nid hs, if_pos hnid]
      exact hn
  · intro s hs
    obtain ⟨r, hr, -, hmem⟩ := hmain [] s hs
    refine ⟨r, hr, fun n => ?_⟩
    rw [hmem]
    simp [getFilterFromArgs]

/-- C14 (failing input): on a store whose key 1 holds a leaf, key 2 a nil `*Node` and key 3 a
value of another type, `GetNode` resolves key 1 only, and `GetAllNodes` returns a slice of two
pointers: the leaf and a nil pointer. The entry of another type is skipped, the nil `*Node` is
not. -/
theorem GetAllNodes_nil_entry :
    GetNode malformedTree 1 = some loneRoot ∧ GetNode malformedTree 2 = none ∧
    GetNode malformedTree 3 = none ∧
    GetAllNodes malformedTree = [some loneRoot, none] := by
  decide

/-- C15: when `p` resolves to the node `n` and `c` is another id, after the removal of the
store entry for `c` the call `GetChildNodes p` returns the child ids of `n` other than `c`,
resolved in order as before the removal; when the keys of the store are the ids of the nodes
this is the former result without the nodes whose id is `c`. On the tree 1 -> {2, 3},
2 -> {4}, removing node 2 leaves `GetChildNodes 1 = [node 3]`. -/
theorem GetChildNodes_deleteNode (t : SafeMultiBranchTree) (p c : Int) (n : Node)
    (hp : GetNode t p = some n) (hc : c ≠ p) :
    GetChildNodes t p = some (n.ChildIds.filterMap (GetNode t)) ∧
    GetChildNodes (deleteNode t c) p =
      some ((n.ChildIds.filter fun x => decide (x ≠ c)).filterMap (GetNode t)) ∧
    (KeysAreIds t →
      GetChildNodes (deleteNode t c) p =
        (GetChildNodes t p).map (List.filter fun m => decide (m.Id ≠ c))) ∧
    GetChildNodes (deleteNode specTree 2) 1 = some [node3] := by
  have hold := GetChildNodes_of_GetNode t p n hp
  have hp' : GetNode (deleteNode t c) p = some n := by
    rw [GetNode_deleteNode, if_neg (fun h => hc h.symm)]
    exact hp
  have hnew : GetChildNodes (deleteNode t c) p =
      some ((n.ChildIds.filter fun x => decide (x ≠ c)).filterMap (GetNode t)) := by
    rw [GetChildNodes_of_GetNode (deleteNode t c) p n hp', filterMap_GetNode_deleteNode]
  refine ⟨hold, hnew, fun hkeys => ?_, by decide⟩
  rw [hnew, hold, Option.map_some', filter_filterMap_GetNode t hkeys]

/-- C15, instance: node 1 of the tree 1 -> {2, 3}, 2 -> {4} and the removal of node 2. -/
theorem GetChildNodes_deleteNode_witness :
    GetNode specTree 1 = some node1 ∧ (2 : Int) ≠ 1 ∧
    GetChildNodes specTree 1 = some [node2, node3] ∧
    GetChildNodes (deleteNode specTree 2) 1 =
      some ((node1.ChildIds.filter fun x => decide (x ≠ 2)).filterMap (GetNode specTree)) :=
  ⟨by decide, by decide, by decide,
    (GetChildNodes_deleteNode specTree 1 2 node1 (by decide) (by decide)).2.1⟩

/-- C16 (failing input): node 4 of the tree 1 -> {2, 3}, 2 -> {4} is not the root, its parent
node 2 resolves and has no other child, and `GetSiblingNodes 4` is the empty slice made by
`make`, not nil. -/
theorem GetSiblingNodes_only_child :
    (4 : Int) ≠ specTree.RootId ∧ GetParentNode specTree 4 = some node2 ∧
    node2.ChildIds = [4] ∧
    GetSiblingNodes specTree 4 = some [] ∧ GetSiblingNodes specTree 4 ≠ none := by
  decide

/-- The loop of `GetAncestorNode` on `badKeyTree`, for the target level -1: started at the node
stored under the root key, whose id has level 1, every iteration finds the same node again and
no amount of fuel lets the loop return. -/
theorem ancestorLoop_badKeyTree (lvl : Int → Int) (hl : lvl 2 = 1) (fuel : Nat) :
    ancestorLoop lvl badKeyTree (-1) fuel badNode 1 = none := by
  induction fuel with
  | zero => rw [ancestorLoop]
  | succ fuel ih =>
    have hnext : GetNode badKeyTree badNode.Pid = some badNode := by decide
    have hid : lvl badNode.Id = 1 := hl
    rw [ancestorLoop, if_neg (by decide), if_neg (by decide), hnext]
    simp only []
    rw [hid]
    exact ih

/-- C18 (counterexample): in `badKeyTree` the parent chain of id 2 reaches the root after one
link, so `Level 2 = 1`, and the keys of the store are not the ids of the nodes. For every
function `lvl` that implements `Level`, `GetAncestorNode 2 (-1)` does not return, whatever the
number of loop iterations allowed: the walk reads the level of the id carried by the node, which
never becomes 0. -/
theorem GetAncestorNode_diverges_badKeyTree :
    HasLevel badKeyTree 2 1 ∧ IsLevelFn (Level badKeyTree) badKeyTree ∧
    Level badKeyTree 2 = 1 ∧ ¬ KeysAreIds badKeyTree ∧
    (∀ fuel, GetAncestorNode (Level badKeyTree) fuel badKeyTree 2 (-1) = none) ∧
    (∀ lvl, IsLevelFn lvl badKeyTree →
      ∀ fuel, GetAncestorNode lvl fuel badKeyTree 2 (-1) = none) := by
  have hk : HasLevel badKeyTree 2 1 := by decide
  have hgen : ∀ lvl, IsLevelFn lvl badKeyTree →
      ∀ fuel, GetAncestorNode lvl fuel badKeyTree 2 (-1) = none := by
    intro lvl hlvl fuel
    have hl : lvl 2 = 1 := by simpa using hlvl 2 1 hk
    have hn : GetNode badKeyTree 2 = some badNode := by decide
    have hp : GetNode badKeyTree badNode.Pid = some badNode := by decide
    have hid : lvl badNode.Id = 1 := hl
    unfold GetAncestorNode
    rw [if_neg (by decide), hn]
    simp only [hp]
    rw [if_neg (by decide), if_neg (by rw [hl]; decide), hid]
    exact ancestorLoop_badKeyTree lvl hl fuel
  refine ⟨hk, Level_isLevelFn badKeyTree, by decide, ?_,
    hgen (Level badKeyTree) (Level_isLevelFn badKeyTree), hgen⟩
  intro hkeys
  have := hkeys 1 badNode (by decide)
  revert this
  decide

/-- C18 (amended): when the keys of the store are the ids of the nodes, `lvl` is the method
`Level` and the parent chain of `id` reaches the root after `k` links, then `lvl id = k` and, for every
level, `GetAncestorNode id level` returns within `k` iterations of its loop. -/
theorem GetAncestorNode_terminates (lvl : Int → Int) (t : SafeMultiBranchTree)
    (hkeys : KeysAreIds t) (hlvl : IsLevelFn lvl t) (id : Int) (k : Nat)
    (hk : HasLevel t id k) (level : Int) :
    lvl id = (k : Int) ∧
    ∃ r, ∀ fuel, k ≤ fuel → GetAncestorNode lvl fuel t id level = some r := by
  refine ⟨hlvl id k hk, ?_⟩
  unfold GetAncestorNode
  by_cases hr : id = t.RootId
  · exact ⟨none, fun fuel _ => by rw [if_pos hr]⟩
  · cases k with
    | zero => exact absurd ((HasLevel_zero_iff t id).mp hk).1 hr
    | succ k =>
      obtain ⟨-, n, hn, hk'⟩ := (HasLevel_succ_iff t id k).mp hk
      obtain ⟨asc, hasc⟩ := HasLevel_resolves t n.Pid k hk'
      have haid : asc.Id = n.Pid := hkeys n.Pid asc hasc
      have hasc' : GetNode t asc.Id = some asc := by rw [haid]; exact hasc
      have hkasc : HasLevel t asc.Id k := by rw [haid]; exact hk'
      obtain ⟨r, hloop⟩ := ancestorLoop_terminates lvl t hkeys hlvl level k asc hasc' hkasc
      simp only [if_neg hr, hn, hasc]
      by_cases h0 : level = 0
      · exact ⟨some asc, fun fuel _ => by rw [if_pos h0]⟩
      · by_cases hge : level ≥ lvl id
        · exact ⟨none, fun fuel _ => by rw [if_neg h0, if_pos hge]⟩
        · refine ⟨r, fun fuel hf => ?_⟩
          rw [if_neg h0, if_neg hge, hlvl asc.Id k hkasc]
          exact hloop fuel hf

/-- C18 (amended), instance: in the chain 1 -> 2 -> 3 -> 4 -> 5 the walk from node 5, at
level 4, for the level -3 visits the four ancestors and returns nil in its fourth iteration. -/
theorem GetAncestorNode_terminates_witness :
    KeysAreIds chainTree ∧ IsLevelFn (Level chainTree) chainTree ∧ HasLevel chainTree 5 4 ∧
    GetAncestorNode (Level chainTree) 3 chainTree 5 (-3) = none ∧
    GetAncestorNode (Level chainTree) 4 chainTree 5 (-3) = some none ∧
    Level chainTree 5 = ((4 : Nat) : Int) ∧
    ∃ r, ∀ fuel, 4 ≤ fuel → GetAncestorNode (Level chainTree) fuel chainTree 5 (-3) = some r :=
  ⟨chainTree_wellFormed.keys, Level_isLevelFn chainTree, by decide, by decide, by decide,
    GetAncestorNode_terminates (Level chainTree) chainTree chainTree_wellFormed.keys
      (Level_isLevelFn chainTree) 5 4 (by decide) (-3)⟩

/-- C19: when the keys of the store are the ids of the nodes, for an id other than the root id
whose parent resolves to `p`, `GetSiblingNodes id` is `GetChildNodes p.Id` without the nodes
whose id is `id`; so no node of the result has the id `id`. -/
theorem GetSiblingNodes_eq_filter_GetChildNodes (t : SafeMultiBranchTree)
    (hkeys : KeysAreIds t) (id : Int) (hid : id ≠ t.RootId) (p : Node)
    (hp : GetParentNode t id = some p) :
    GetSiblingNodes t id =
      (GetChildNodes t p.Id).map (List.filter fun n => decide (n.Id ≠ id)) ∧
    ∀ r, GetSiblingNodes t id = some r → ∀ n ∈ r, n.Id ≠ id := by
  have hpp : GetNode t p.Id = some p := by
    unfold GetParentNode at hp
    cases hn : GetNode t id with
    | none => rw [hn] at hp; cases hp
    | some node =>
      rw [hn] at hp
      simp only [] at hp
      rw [hkeys node.Pid p hp]
      exact hp
  have hsib : GetSiblingNodes t id =
      some ((p.ChildIds.filter fun c => decide (c ≠ id)).filterMap (GetNode t)) := by
    unfold GetSiblingNodes
    rw [if_neg hid, hp]
    simp only [foldl_appendSibling, List.nil_append]
  have heq : GetSiblingNodes t id =
      (GetChildNodes t p.Id).map (List.filter fun n => decide (n.Id ≠ id)) := by
    rw [hsib, GetChildNodes_of_GetNode t p.Id p hpp, Option.map_some',
      filter_filterMap_GetNode t hkeys]
  refine ⟨heq, fun r hr n hn => ?_⟩
  rw [heq, GetChildNodes_of_GetNode t p.Id p hpp, Option.map_some'] at hr
  cases hr
  simpa using (List.mem_filter.mp hn).2

/-- C19, instance: the siblings of node 2 in the tree 1 -> {2, 3}, 2 -> {4} are the children
`[node 2, node 3]` of node 1 without node 2. -/
theorem GetSiblingNodes_eq_filter_GetChildNodes_witness :
    KeysAreIds specTree ∧ (2 : Int) ≠ specTree.RootId ∧
    GetParentNode specTree 2 = some node1 ∧
    GetChildNodes specTree node1.Id = some [node2, node3] ∧
    GetSiblingNodes specTree 2 =
      (GetChildNodes specTree node1.Id).map (List.filter fun n => decide (n.Id ≠ 2)) :=
  ⟨specTree_wellFormed.keys, by decide, by decide, by decide,
    (GetSiblingNodes_eq_filter_GetChildNodes specTree specTree_wellFormed.keys 2 (by decide)
      node1 (by decide)).1⟩

/-- C20: with the subtree of the spec, when `id` resolves to the node `n`, the result of
`GetDescendantNodes id` with no filter contains `n`; when `n` is a leaf the result is the one
element `n`. -/
theorem GetDescendantNodes_self (t : SafeMultiBranchTree) (id : Int) (n : Node)
    (hn : GetNode t id = some n) :
    (∃ r, GetDescendantNodes SubTree t id [] = some r ∧ some n ∈ r) ∧
    (n.ChildIds = [] → GetDescendantNodes SubTree t id [] = some [some n]) := by
  constructor
  · have hs : SubTree t id = some
        { RootId := id, Nodes := (DepthFirstTraversal t id).filterMap (copyEntry t) } := by
      unfold SubTree; rw [hn]
    refine ⟨_, by unfold GetDescendantNodes; rw [hs], ?_⟩
    rw [mem_foldl_descendantVisit]
    refine ⟨by simp [getFilterFromArgs], id, Or.inl ⟨n, rfl, ?_⟩⟩
    rw [mem_Range_iff]
    simp only []
    rw [Load_filterMap_copyEntry, if_pos (mem_DepthFirstTraversal_self t id n hn), hn]
    rfl
  · intro hleaf
    have hd : DepthFirstTraversal t id = [id] := by
      rw [DepthFirstTraversal_of_GetNode t id n hn, hleaf, dftLoop_nil]
    have hce : copyEntry t id = some (id, StoreValue.node n) := by
      unfold copyEntry; rw [hn]
    unfold GetDescendantNodes SubTree
    rw [hn]
    simp only [hd, List.filterMap_cons, hce, List.filterMap_nil]
    simp [Range, descendantVisit, getFilterFromArgs]

/-- C20, instance: the leaf node 4 and the inner node 2 of the tree 1 -> {2, 3}, 2 -> {4}. -/
theorem GetDescendantNodes_self_witness :
    GetNode specTree 4 = some node4 ∧ node4.ChildIds = [] ∧
    GetDescendantNodes SubTree specTree 4 [] = some [some node4] ∧
    GetDescendantNodes SubTree specTree 2 [] = some [some node2, some node4] :=
  ⟨by decide, by decide,
    (GetDescendantNodes_self specTree 4 node4 (by decide)).2 (by decide), by decide⟩

end mbtree
